import Mathlib

/-!
Verification of the coalition valuation and Shapley aggregation engine in
`network_shapley.py`, against its natural-language specification.

The Python program is shallowly embedded: pandas tables become lists of row
structures, numpy vectors/matrices become functions out of `ℕ`, scipy sparse
matrices become coordinate lists, and floating-point numbers are modelled by
exact rationals (`ℚ`).
-/

namespace NetworkShapley

/-! ### Bitmask helpers

`_bits` in `network_shapley.py` builds the `n × 2^n` bitmap with entry
`(k, idx) = (idx >> k) & 1`; coalition `idx` contains operator `k` iff that
bit is `1`.  `size` is `np.sum(bitmap[:, idx])`, the coalition cardinality.
-/

/-- Entry `(k, idx)` of the `_bits` bitmap: `(idx >> k) & 1`. -/
def bitv (k idx : ℕ) : ℕ := (idx >>> k) &&& 1

/-- Coalition size `size[idx] = np.sum(bitmap[:, idx])`. -/
def size (n idx : ℕ) : ℕ := ∑ k ∈ Finset.range n, bitv k idx

theorem bitv_eq_testBit (k idx : ℕ) : bitv k idx = if idx.testBit k then 1 else 0 := by
  simp only [bitv, Nat.and_one_is_mod, Nat.testBit_to_div_mod, Nat.shiftRight_eq_div_pow]
  rcases Nat.mod_two_eq_zero_or_one (idx / 2 ^ k) with h | h <;> simp [h]

theorem bitv_le_one (k idx : ℕ) : bitv k idx ≤ 1 := by
  rw [bitv_eq_testBit]; split <;> omega

theorem bitv_zero_right (k : ℕ) : bitv k 0 = 0 := by
  rw [bitv_eq_testBit, Nat.zero_testBit]; rfl

theorem size_zero_right (n : ℕ) : size n 0 = 0 := by
  unfold size
  exact Finset.sum_eq_zero fun k _ => bitv_zero_right k

theorem size_le (n idx : ℕ) : size n idx ≤ n := by
  calc size n idx ≤ ∑ _k ∈ Finset.range n, 1 :=
        Finset.sum_le_sum fun k _ => bitv_le_one k idx
    _ = n := by simp

/-- A number below `2 ^ n` with no set bit among the low `n` bits is zero. -/
theorem size_eq_zero_iff {n idx : ℕ} (h : idx < 2 ^ n) : size n idx = 0 ↔ idx = 0 := by
  constructor
  · intro hs
    apply Nat.eq_of_testBit_eq
    intro k
    rw [Nat.zero_testBit]
    by_cases hk : k < n
    · have := Finset.sum_eq_zero_iff.mp hs k (Finset.mem_range.mpr hk)
      rw [bitv_eq_testBit] at this
      by_contra hb
      rw [Bool.not_eq_false] at hb
      simp [hb] at this
    · exact Nat.testBit_lt_two_pow (lt_of_lt_of_le h (Nat.pow_le_pow_right (by omega) (by omega)))
  · rintro rfl; exact size_zero_right n

/-- A number below `2 ^ n` with all of its low `n` bits set is `2 ^ n - 1`. -/
theorem size_eq_n_iff {n idx : ℕ} (h : idx < 2 ^ n) : size n idx = n ↔ idx = 2 ^ n - 1 := by
  have hbits : ∀ m, (2 ^ n - 1).testBit m = decide (m < n) := fun m =>
    Nat.testBit_two_pow_sub_one n m
  constructor
  · intro hs
    have hall : ∀ k ∈ Finset.range n, bitv k idx = 1 := by
      intro k hk
      by_contra hb
      have hlt : bitv k idx < 1 := lt_of_le_of_ne (bitv_le_one k idx) hb
      have : size n idx < ∑ _k ∈ Finset.range n, 1 :=
        Finset.sum_lt_sum (fun j _ => bitv_le_one j idx) ⟨k, hk, hlt⟩
      simp [hs] at this
    apply Nat.eq_of_testBit_eq
    intro k
    rw [hbits]
    by_cases hk : k < n
    · have := hall k (Finset.mem_range.mpr hk)
      rw [bitv_eq_testBit] at this
      by_cases hb : idx.testBit k
      · simp [hb, hk]
      · simp [hb] at this
    · have : idx.testBit k = false :=
        Nat.testBit_lt_two_pow (lt_of_lt_of_le h (Nat.pow_le_pow_right (by omega) (by omega)))
      simp [this, hk]
  · rintro rfl
    unfold size
    have : ∀ k ∈ Finset.range n, bitv k (2 ^ n - 1) = 1 := by
      intro k hk
      rw [bitv_eq_testBit, hbits]
      simp [Finset.mem_range.mp hk]
    rw [Finset.sum_congr rfl this]
    simp

/-- Bitwise subset: coalition `T` is contained in coalition `S`. -/
def bsub (T S : ℕ) : Prop := T &&& S = T

instance (T S : ℕ) : Decidable (bsub T S) := by unfold bsub; infer_instance

theorem bsub_iff {T S : ℕ} : bsub T S ↔ ∀ k, T.testBit k = true → S.testBit k = true := by
  constructor
  · intro h k hk
    have := congrArg (fun x => x.testBit k) h
    simp only [Nat.testBit_and, hk, Bool.true_and] at this
    exact this
  · intro h
    apply Nat.eq_of_testBit_eq
    intro k
    rw [Nat.testBit_and]
    by_cases hk : T.testBit k
    · simp [hk, h k hk]
    · simp [hk]

theorem bsub_refl (S : ℕ) : bsub S S := Nat.and_self S

theorem bsub_zero_left (S : ℕ) : bsub 0 S := Nat.zero_and S

theorem bsub_zero_right {T : ℕ} : bsub T 0 ↔ T = 0 := by
  unfold bsub
  rw [Nat.and_zero]
  exact ⟨fun h => h.symm, fun h => h.symm⟩

theorem bsub_le {T S : ℕ} (h : bsub T S) : T ≤ S :=
  Nat.le_of_testBit (bsub_iff.mp h)

/-- Entry `(S, T)` of the `submask` matrix (lines 393–394 of
`network_shapley.py`): every bit of column `T` is dominated by the matching
bit of row `S` (`(bitmap[:, None, :] <= bitmap[:, :, None]).all(axis=0)`),
intersected with the lower-triangular mask `np.tri` (`T ≤ S`). -/
def submask (n S T : ℕ) : Bool :=
  ((List.range n).all fun k => decide (bitv k T ≤ bitv k S)) && decide (T ≤ S)

/-- For in-range columns, `submask` is exactly the bitwise-subset test. -/
theorem submask_iff {n S T : ℕ} (hT : T < 2 ^ n) : submask n S T = true ↔ bsub T S := by
  unfold submask
  rw [Bool.and_eq_true, List.all_eq_true]
  constructor
  · rintro ⟨hall, _⟩
    rw [bsub_iff]
    intro k hk
    by_cases hkn : k < n
    · have := hall k (List.mem_range.mpr hkn)
      rw [decide_eq_true_eq, bitv_eq_testBit, bitv_eq_testBit, hk] at this
      by_contra hb
      rw [Bool.not_eq_true] at hb
      simp [hb] at this
    · have : T.testBit k = false :=
        Nat.testBit_lt_two_pow (lt_of_lt_of_le hT (Nat.pow_le_pow_right (by omega) (by omega)))
      rw [this] at hk; cases hk
  · intro h
    refine ⟨?_, decide_eq_true (bsub_le h)⟩
    intro k _
    rw [decide_eq_true_eq, bitv_eq_testBit, bitv_eq_testBit]
    by_cases hk : T.testBit k
    · simp [hk, bsub_iff.mp h k hk]
    · simp [hk]

/-! ### The integer coefficient matrix of the expectation transform

Lines 397–403 of `network_shapley.py` build a sparse integer matrix by the
loop

  coef = csr_matrix((1, 1), dtype=int)            -- the 1×1 all-zero matrix
  for i in range(n_ops):
      sz = 2**i
      top = hstack [coef, zeros (sz, sz)]
      bottom = hstack [-coef - diags([1]*sz), coef]
      coef = vstack [top, bottom]

A scipy sparse matrix is embedded as a list of `(row, col, value)`
coordinate entries; the entry at a coordinate is the sum of the stored
values there.
-/

/-- Sparse matrix in coordinate form. -/
abbrev SpMat := List (ℕ × ℕ × ℤ)

/-- The matrix entry at `(r, c)`: sum of all stored values at that spot. -/
def spEntry (A : SpMat) (r c : ℕ) : ℤ :=
  (A.map fun e => if e.1 = r ∧ e.2.1 = c then e.2.2 else 0).sum

/-- Horizontal stacking `hstack [A, B]`, where `A` has `sz` columns. -/
def spHstack (sz : ℕ) (A B : SpMat) : SpMat :=
  A ++ B.map fun e => (e.1, e.2.1 + sz, e.2.2)

/-- Vertical stacking `vstack [A, B]`, where `A` has `sz` rows. -/
def spVstack (sz : ℕ) (A B : SpMat) : SpMat :=
  A ++ B.map fun e => (e.1 + sz, e.2.1, e.2.2)

/-- Entrywise negation `-A`. -/
def spNeg (A : SpMat) : SpMat := A.map fun e => (e.1, e.2.1, -e.2.2)

/-- `diags([1]*sz)`: the `sz × sz` identity matrix. -/
def spDiag (sz : ℕ) : SpMat := (List.range sz).map fun i => (i, i, (1 : ℤ))

/-- One iteration of the coefficient-matrix loop (lines 398–402). -/
def coefStep (i : ℕ) (coef : SpMat) : SpMat :=
  let sz := 2 ^ i
  let top := spHstack sz coef []
  let bottom := spHstack sz (spNeg coef ++ spNeg (spDiag sz)) coef
  spVstack sz top bottom

/-- The coefficient matrix after running the loop `for i in range(n)`,
starting from `csr_matrix((1, 1))` — the 1×1 all-zero matrix, hence the
empty entry list. -/
def codeCoef : ℕ → SpMat
  | 0 => []
  | n + 1 => coefStep n (codeCoef n)

theorem spEntry_nil (r c : ℕ) : spEntry [] r c = 0 := rfl

theorem spEntry_append (A B : SpMat) (r c : ℕ) :
    spEntry (A ++ B) r c = spEntry A r c + spEntry B r c := by
  unfold spEntry
  rw [List.map_append, List.sum_append]

theorem spEntry_colShift (B : SpMat) (sz r c : ℕ) :
    spEntry (B.map fun e => (e.1, e.2.1 + sz, e.2.2)) r c =
      if sz ≤ c then spEntry B r (c - sz) else 0 := by
  unfold spEntry
  rw [List.map_map]
  by_cases hle : sz ≤ c
  · rw [if_pos hle]
    congr 1
    apply List.map_congr_left
    intro e _
    simp only [Function.comp_apply]
    by_cases h1 : e.1 = r
    · by_cases h2 : e.2.1 = c - sz
      · have h3 : e.2.1 + sz = c := by omega
        have h4 : c - sz + sz = c := by omega
        simp [h1, h2, h3, h4]
      · have : ¬(e.2.1 + sz = c) := by omega
        simp [h1, h2, this]
    · simp [h1]
  · rw [if_neg hle]
    apply List.sum_eq_zero
    intro x hx
    rw [List.mem_map] at hx
    obtain ⟨e, _, rfl⟩ := hx
    simp only [Function.comp_apply]
    have : ¬(e.2.1 + sz = c) := by omega
    simp [this]

theorem spEntry_rowShift (B : SpMat) (sz r c : ℕ) :
    spEntry (B.map fun e => (e.1 + sz, e.2.1, e.2.2)) r c =
      if sz ≤ r then spEntry B (r - sz) c else 0 := by
  unfold spEntry
  rw [List.map_map]
  by_cases hle : sz ≤ r
  · rw [if_pos hle]
    congr 1
    apply List.map_congr_left
    intro e _
    simp only [Function.comp_apply]
    by_cases h1 : e.2.1 = c
    · by_cases h2 : e.1 = r - sz
      · have h3 : e.1 + sz = r := by omega
        have h4 : r - sz + sz = r := by omega
        simp [h1, h2, h3, h4]
      · have : ¬(e.1 + sz = r) := by omega
        simp [h1, h2, this]
    · simp [h1]
  · rw [if_neg hle]
    apply List.sum_eq_zero
    intro x hx
    rw [List.mem_map] at hx
    obtain ⟨e, _, rfl⟩ := hx
    simp only [Function.comp_apply]
    have : ¬(e.1 + sz = r) := by omega
    simp [this]

theorem spEntry_neg (A : SpMat) (r c : ℕ) : spEntry (spNeg A) r c = -spEntry A r c := by
  unfold spEntry spNeg
  rw [List.map_map]
  induction A with
  | nil => simp
  | cons e A ih =>
    simp only [List.map_cons, List.sum_cons, ih]
    by_cases h : e.1 = r ∧ e.2.1 = c
    · simp only [Function.comp_apply, h, and_self, if_pos]
      ring
    · simp only [Function.comp_apply, h, if_neg, if_false]
      ring

theorem spEntry_diag (sz r c : ℕ) :
    spEntry (spDiag sz) r c = if r = c ∧ r < sz then 1 else 0 := by
  unfold spEntry spDiag
  rw [List.map_map]
  induction sz with
  | zero => simp
  | succ m ih =>
    rw [List.range_succ, List.map_append, List.sum_append, ih]
    simp only [List.map_singleton, Function.comp_apply, List.sum_cons, List.sum_nil]
    by_cases h1 : m = r
    · by_cases h2 : m = c
      · have ha : ¬(r = c ∧ r < m) := by omega
        have hb : r = c ∧ r < m + 1 := by omega
        simp [h1, h2, ha, hb]
      · have ha : ¬(r = c ∧ r < m) := by omega
        have hb : ¬(r = c ∧ r < m + 1) := by omega
        simp [h1, h2, ha, hb]
    · by_cases hc : r = c ∧ r < m
      · obtain ⟨hrc, hrm⟩ := hc
        subst hrc
        have hd : ¬(m = r ∧ m = r) := by omega
        rw [if_neg hd, if_pos ⟨rfl, hrm⟩, if_pos ⟨rfl, by omega⟩]
        norm_num
      · have hb : ¬(r = c ∧ r < m + 1) := by omega
        simp [h1, hc, hb]

/-- The block recursion `M_{i+1} = [[M_i, 0], [-M_i - I, M_i]]` of §4.4 of the
specification, but with base case the 1×1 zero matrix `M_0 = [[0]]` — which is
what `csr_matrix((1, 1), dtype=int)` actually denotes. -/
def coefRec : ℕ → ℕ → ℕ → ℤ
  | 0, _, _ => 0
  | n + 1, r, t =>
    if r < 2 ^ n then (if t < 2 ^ n then coefRec n r t else 0)
    else if t < 2 ^ n then
      -coefRec n (r - 2 ^ n) t - (if r - 2 ^ n = t then 1 else 0)
    else coefRec n (r - 2 ^ n) (t - 2 ^ n)

/-- The block recursion exactly as the specification words it, with base case
`M_0 = [[1]]`. -/
def specCoefRec : ℕ → ℕ → ℕ → ℤ
  | 0, r, t => if r = 0 ∧ t = 0 then 1 else 0
  | n + 1, r, t =>
    if r < 2 ^ n then (if t < 2 ^ n then specCoefRec n r t else 0)
    else if t < 2 ^ n then
      -specCoefRec n (r - 2 ^ n) t - (if r - 2 ^ n = t then 1 else 0)
    else specCoefRec n (r - 2 ^ n) (t - 2 ^ n)

theorem coefRec_eq_zero : ∀ n r t, 2 ^ n ≤ r ∨ 2 ^ n ≤ t → coefRec n r t = 0 := by
  intro n
  induction n with
  | zero => intro r t _; rfl
  | succ m ih =>
    intro r t h
    unfold coefRec
    rcases h with h | h
    · have hr : ¬r < 2 ^ m := by
        have : 2 ^ m ≤ 2 ^ (m + 1) := Nat.pow_le_pow_right (by omega) (by omega)
        omega
      rw [if_neg hr]
      by_cases ht : t < 2 ^ m
      · rw [if_pos ht]
        have h1 : 2 ^ m ≤ r - 2 ^ m := by
          have : 2 ^ (m + 1) = 2 ^ m + 2 ^ m := by ring
          omega
        rw [ih (r - 2 ^ m) t (Or.inl h1)]
        have h2 : ¬(r - 2 ^ m = t) := by omega
        rw [if_neg h2]
        ring
      · rw [if_neg ht]
        have h1 : 2 ^ m ≤ r - 2 ^ m := by
          have : 2 ^ (m + 1) = 2 ^ m + 2 ^ m := by ring
          omega
        exact ih _ _ (Or.inl h1)
    · have ht : ¬t < 2 ^ m := by
        have : 2 ^ m ≤ 2 ^ (m + 1) := Nat.pow_le_pow_right (by omega) (by omega)
        omega
      by_cases hr : r < 2 ^ m
      · rw [if_pos hr, if_neg ht]
      · rw [if_neg hr, if_neg ht]
        have h1 : 2 ^ m ≤ t - 2 ^ m := by
          have : 2 ^ (m + 1) = 2 ^ m + 2 ^ m := by ring
          omega
        exact ih _ _ (Or.inr h1)

/-- The sparse matrix built by the loop in `network_shapley` agrees entrywise
with the block recursion whose base case is the 1×1 zero matrix. -/
theorem codeCoef_entry_eq : ∀ n r t, spEntry (codeCoef n) r t = coefRec n r t := by
  intro n
  induction n with
  | zero => intro r t; rfl
  | succ m ih =>
    intro r t
    show spEntry (coefStep m (codeCoef m)) r t = _
    unfold coefStep spVstack spHstack
    rw [spEntry_append, spEntry_rowShift]
    simp only [List.map_nil, List.append_nil]
    rw [ih]
    show _ = coefRec (m + 1) r t
    rw [coefRec]
    by_cases hr : r < 2 ^ m
    · have h1 : ¬(2 ^ m ≤ r) := by omega
      rw [if_pos hr, if_neg h1, add_zero]
      by_cases ht : t < 2 ^ m
      · rw [if_pos ht]
      · rw [if_neg ht]
        exact coefRec_eq_zero m r t (Or.inr (by omega))
    · have h1 : 2 ^ m ≤ r := by omega
      rw [if_neg hr, if_pos h1]
      rw [spEntry_append, spEntry_colShift, spEntry_append, spEntry_neg, spEntry_neg,
        spEntry_diag]
      simp only [ih]
      by_cases ht : t < 2 ^ m
      · have h2 : ¬(2 ^ m ≤ t) := by omega
        rw [if_pos ht, if_neg h2, add_zero]
        rw [coefRec_eq_zero m r t (Or.inl h1)]
        by_cases h3 : r - 2 ^ m = t
        · rw [if_pos h3, if_pos ⟨h3, by omega⟩]
          ring
        · rw [if_neg h3]
          have h4 : ¬(r - 2 ^ m = t ∧ r - 2 ^ m < 2 ^ m) := by
            rintro ⟨ha, _⟩; exact h3 ha
          rw [if_neg h4]
          ring
      · have h2 : 2 ^ m ≤ t := by omega
        rw [if_neg ht, if_pos h2]
        rw [coefRec_eq_zero m r t (Or.inl h1), coefRec_eq_zero m (r - 2 ^ m) t (Or.inr h2)]
        have h4 : ¬(r - 2 ^ m = t ∧ r - 2 ^ m < 2 ^ m) := by
          rintro ⟨ha, hb⟩; omega
        rw [if_neg h4]
        ring

theorem testBit_two_pow_add {n x : ℕ} (hx : x < 2 ^ n) (m : ℕ) :
    (2 ^ n + x).testBit m = if m < n then x.testBit m else decide (m = n) := by
  by_cases hm : m < n
  · rw [if_pos hm, Nat.testBit_two_pow_add_gt hm]
  · rw [if_neg hm]
    by_cases he : m = n
    · subst he
      rw [Nat.testBit_two_pow_add_eq, Nat.testBit_lt_two_pow hx]
      simp
    · have hgt : n < m := by omega
      have hlt : 2 ^ n + x < 2 ^ m := by
        have h1 : 2 ^ n + x < 2 ^ (n + 1) := by
          have : 2 ^ (n + 1) = 2 ^ n + 2 ^ n := by ring
          omega
        exact lt_of_lt_of_le h1 (Nat.pow_le_pow_right (by omega) (by omega))
      rw [Nat.testBit_lt_two_pow hlt]
      simp [he]

theorem size_low {n x : ℕ} (hx : x < 2 ^ n) : size (n + 1) x = size n x := by
  unfold size
  rw [Finset.sum_range_succ]
  have : bitv n x = 0 := by
    rw [bitv_eq_testBit, Nat.testBit_lt_two_pow hx]
    rfl
  rw [this, add_zero]

theorem size_high {n x : ℕ} (hx : x < 2 ^ n) : size (n + 1) (2 ^ n + x) = size n x + 1 := by
  unfold size
  rw [Finset.sum_range_succ]
  have h1 : bitv n (2 ^ n + x) = 1 := by
    rw [bitv_eq_testBit, testBit_two_pow_add hx]
    simp
  rw [h1]
  congr 1
  apply Finset.sum_congr rfl
  intro k hk
  rw [bitv_eq_testBit, bitv_eq_testBit, testBit_two_pow_add hx,
    if_pos (Finset.mem_range.mp hk)]

theorem bsub_low_add {n t r : ℕ} (ht : t < 2 ^ n) (hr : r < 2 ^ n) :
    bsub t (2 ^ n + r) ↔ bsub t r := by
  rw [bsub_iff, bsub_iff]
  constructor
  · intro h k hk
    have := h k hk
    rw [testBit_two_pow_add hr] at this
    by_cases hkn : k < n
    · rwa [if_pos hkn] at this
    · exfalso
      have : t.testBit k = false :=
        Nat.testBit_lt_two_pow (lt_of_lt_of_le ht (Nat.pow_le_pow_right (by omega) (by omega)))
      rw [this] at hk; cases hk
  · intro h k hk
    rw [testBit_two_pow_add hr]
    by_cases hkn : k < n
    · rw [if_pos hkn]; exact h k hk
    · exfalso
      have : t.testBit k = false :=
        Nat.testBit_lt_two_pow (lt_of_lt_of_le ht (Nat.pow_le_pow_right (by omega) (by omega)))
      rw [this] at hk; cases hk

theorem bsub_high_add {n t r : ℕ} (ht : t < 2 ^ n) (hr : r < 2 ^ n) :
    bsub (2 ^ n + t) (2 ^ n + r) ↔ bsub t r := by
  rw [bsub_iff, bsub_iff]
  constructor
  · intro h k hk
    by_cases hkn : k < n
    · have h1 := h k
      rw [testBit_two_pow_add ht, testBit_two_pow_add hr, if_pos hkn, if_pos hkn] at h1
      exact h1 hk
    · exfalso
      have : t.testBit k = false :=
        Nat.testBit_lt_two_pow (lt_of_lt_of_le ht (Nat.pow_le_pow_right (by omega) (by omega)))
      rw [this] at hk; cases hk
  · intro h k hk
    rw [testBit_two_pow_add ht] at hk
    rw [testBit_two_pow_add hr]
    by_cases hkn : k < n
    · rw [if_pos hkn] at *
      exact h k hk
    · rw [if_neg hkn] at *
      exact hk

theorem not_bsub_high_low {n t r : ℕ} (ht : t < 2 ^ n) (hr : r < 2 ^ n) :
    ¬bsub (2 ^ n + t) r := by
  rw [bsub_iff]
  intro h
  have h1 : (2 ^ n + t).testBit n = true := by
    rw [testBit_two_pow_add ht]
    simp
  have h2 := h n h1
  rw [Nat.testBit_lt_two_pow hr] at h2
  cases h2

/-- Closed form of the coefficient matrix: entry `(r, t)` is `(-1)^(|r| + |t|)`
when `t` is a strict sub-coalition of `r`, and `0` otherwise. -/
theorem coefRec_char : ∀ n r t, r < 2 ^ n → t < 2 ^ n →
    coefRec n r t = if bsub t r ∧ t ≠ r then (-1 : ℤ) ^ (size n r + size n t) else 0 := by
  intro n
  induction n with
  | zero =>
    intro r t hr ht
    have hr0 : r = 0 := by omega
    have ht0 : t = 0 := by omega
    subst hr0; subst ht0
    simp [coefRec]
  | succ m ih =>
    intro r t hr ht
    have hsplit : 2 ^ (m + 1) = 2 ^ m + 2 ^ m := by ring
    rw [coefRec]
    by_cases hrm : r < 2 ^ m
    · rw [if_pos hrm]
      by_cases htm : t < 2 ^ m
      · rw [if_pos htm, ih r t hrm htm, size_low hrm, size_low htm]
      · rw [if_neg htm]
        obtain ⟨t', rfl⟩ : ∃ tp, t = 2 ^ m + tp := ⟨t - 2 ^ m, by omega⟩
        have ht' : t' < 2 ^ m := by omega
        have hno : ¬(bsub (2 ^ m + t') r ∧ 2 ^ m + t' ≠ r) := by
          rintro ⟨hs, _⟩
          exact not_bsub_high_low ht' hrm hs
        rw [if_neg hno]
    · rw [if_neg hrm]
      obtain ⟨r', rfl⟩ : ∃ rp, r = 2 ^ m + rp := ⟨r - 2 ^ m, by omega⟩
      have hr' : r' < 2 ^ m := by omega
      have hradd : 2 ^ m + r' - 2 ^ m = r' := by omega
      rw [hradd, size_high hr']
      by_cases htm : t < 2 ^ m
      · rw [if_pos htm, ih r' t hr' htm, size_low htm]
        have hsub := @bsub_low_add m t r' htm hr'
        have hne : t ≠ 2 ^ m + r' := by omega
        by_cases heq : r' = t
        · subst heq
          have hx : ¬(bsub r' r' ∧ r' ≠ r') := by rintro ⟨_, h⟩; exact h rfl
          rw [if_neg hx, if_pos rfl, if_pos ⟨hsub.mpr (bsub_refl r'), hne⟩]
          rw [Odd.neg_one_pow ⟨size m r', by ring⟩]
          ring
        · rw [if_neg heq]
          by_cases hs : bsub t r'
          · rw [if_pos ⟨hs, fun h => heq h.symm⟩, if_pos ⟨hsub.mpr hs, hne⟩]
            have hexp : size m r' + 1 + size m t = size m r' + size m t + 1 := by ring
            rw [hexp, pow_succ]
            ring
          · rw [if_neg fun hx => hs hx.1, if_neg fun hx => hs (hsub.mp hx.1)]
            ring
      · rw [if_neg htm]
        obtain ⟨t', rfl⟩ : ∃ tp, t = 2 ^ m + tp := ⟨t - 2 ^ m, by omega⟩
        have ht' : t' < 2 ^ m := by omega
        have htadd : 2 ^ m + t' - 2 ^ m = t' := by omega
        rw [htadd, ih r' t' hr' ht', size_high ht']
        have hsub := @bsub_high_add m t' r' ht' hr'
        have hnee : (2 ^ m + t' ≠ 2 ^ m + r') ↔ t' ≠ r' := by omega
        by_cases hs : bsub t' r' ∧ t' ≠ r'
        · rw [if_pos hs, if_pos ⟨hsub.mpr hs.1, hnee.mpr hs.2⟩]
          ring
        · rw [if_neg hs, if_neg ?_]
          rintro ⟨hx, hy⟩
          exact hs ⟨hsub.mp hx, hnee.mp hy⟩

/-! ### xor and popcount lemmas used by the expectation transform -/

theorem size_xor_two_pow {n k : ℕ} (hk : k < n) (U : ℕ) :
    size n (U ^^^ 2 ^ k) =
      if U.testBit k then size n U - 1 else size n U + 1 := by
  have hmem : k ∈ Finset.range n := Finset.mem_range.mpr hk
  have hoff : ∀ m ∈ Finset.range n \ {k}, bitv m (U ^^^ 2 ^ k) = bitv m U := by
    intro m hm
    rw [Finset.mem_sdiff, Finset.mem_singleton] at hm
    rw [bitv_eq_testBit, bitv_eq_testBit, Nat.testBit_xor,
      Nat.testBit_two_pow_of_ne (fun he => hm.2 he.symm)]
    simp
  have e1 : size n (U ^^^ 2 ^ k) =
      (∑ m ∈ Finset.range n \ {k}, bitv m U) + bitv k (U ^^^ 2 ^ k) := by
    unfold size
    rw [Finset.sum_eq_sum_diff_singleton_add hmem]
    congr 1
    exact Finset.sum_congr rfl hoff
  have e2 : size n U = (∑ m ∈ Finset.range n \ {k}, bitv m U) + bitv k U := by
    unfold size
    rw [Finset.sum_eq_sum_diff_singleton_add hmem]
  by_cases hb : U.testBit k
  · have hx0 : bitv k (U ^^^ 2 ^ k) = 0 := by
      rw [bitv_eq_testBit, Nat.testBit_xor, Nat.testBit_two_pow_self, hb]
      simp
    have hx1 : bitv k U = 1 := by rw [bitv_eq_testBit, hb]; simp
    rw [if_pos hb]
    omega
  · rw [Bool.not_eq_true] at hb
    have hx0 : bitv k (U ^^^ 2 ^ k) = 1 := by
      rw [bitv_eq_testBit, Nat.testBit_xor, Nat.testBit_two_pow_self, hb]
      simp
    have hx1 : bitv k U = 0 := by rw [bitv_eq_testBit, hb]; simp
    rw [if_neg (by simp [hb])]
    omega

theorem one_le_size_of_testBit {n k U : ℕ} (hk : k < n) (hb : U.testBit k = true) :
    1 ≤ size n U := by
  have h1 : bitv k U = 1 := by rw [bitv_eq_testBit, hb]; simp
  unfold size
  calc 1 = bitv k U := h1.symm
    _ ≤ ∑ m ∈ Finset.range n, bitv m U :=
        Finset.single_le_sum (fun (i : ℕ) (_ : i ∈ Finset.range n) => Nat.zero_le (bitv i U))
          (Finset.mem_range.mpr hk)

theorem size_xor_add_of_bsub {T R : ℕ} (h : bsub T R) (n : ℕ) :
    size n (R ^^^ T) + size n T = size n R := by
  unfold size
  rw [← Finset.sum_add_distrib]
  apply Finset.sum_congr rfl
  intro k _
  rw [bitv_eq_testBit, bitv_eq_testBit, bitv_eq_testBit, Nat.testBit_xor]
  by_cases hb : T.testBit k
  · rw [bsub_iff.mp h k hb, hb]
    simp
  · rw [Bool.not_eq_true] at hb
    rw [hb]
    simp

theorem bsub_xor_xor {T R S : ℕ} (hTR : bsub T R) (hRS : bsub R S) :
    bsub (R ^^^ T) (S ^^^ T) := by
  rw [bsub_iff]
  intro k hk
  rw [Nat.testBit_xor] at hk ⊢
  by_cases hb : T.testBit k
  · rw [hb, bsub_iff.mp hTR k hb] at hk
    cases hk
  · rw [Bool.not_eq_true] at hb
    rw [hb] at hk ⊢
    simp only [Bool.xor_false] at hk ⊢
    exact bsub_iff.mp hRS k hk

theorem bsub_xor_back {T U S : ℕ} (hTS : bsub T S) (hU : bsub U (S ^^^ T)) :
    bsub T (U ^^^ T) ∧ bsub (U ^^^ T) S := by
  have hUT : ∀ k, U.testBit k = true → T.testBit k = false := by
    intro k hk
    have := bsub_iff.mp hU k hk
    rw [Nat.testBit_xor] at this
    by_cases hb : T.testBit k
    · rw [hb, bsub_iff.mp hTS k hb] at this
      cases this
    · rwa [Bool.not_eq_true] at hb
  constructor
  · rw [bsub_iff]
    intro k hk
    rw [Nat.testBit_xor, hk]
    by_cases hu : U.testBit k
    · rw [hUT k hu] at hk
      cases hk
    · rw [Bool.not_eq_true] at hu
      rw [hu]
      rfl
  · rw [bsub_iff]
    intro k hk
    rw [Nat.testBit_xor] at hk
    by_cases hu : U.testBit k
    · have := bsub_iff.mp hU k hu
      rw [Nat.testBit_xor] at this
      by_cases hs : S.testBit k
      · exact hs
      · rw [Bool.not_eq_true] at hs
        rw [hs] at this
        simp only [Bool.false_xor] at this
        rw [hUT k hu] at this
        cases this
    · rw [Bool.not_eq_true] at hu
      rw [hu] at hk
      simp only [Bool.false_xor] at hk
      exact bsub_iff.mp hTS k hk

/-! ### The expectation transform (lines 393–409 of `network_shapley.py`) -/

/-- Indicator form of the `submask` matrix. -/
def subInd (n S T : ℕ) : ℚ := if submask n S T then 1 else 0

/-- `base_p = operator_uptime ** size` (line 395), indexed by the column of
the matrices it multiplies. -/
def basePQ (n : ℕ) (p : ℚ) (T : ℕ) : ℚ := p ^ size n T

/-- `bp_masked = base_p * submask` (line 396). -/
def bpMasked (n : ℕ) (p : ℚ) (S T : ℕ) : ℚ := basePQ n p T * subInd n S T

/-- `coef_dense = coef.toarray()` (line 404): dense view of the loop-built
sparse matrix, as rationals. -/
def coefQ (n R T : ℕ) : ℚ := (spEntry (codeCoef n) R T : ℚ)

/-- `term = bp_masked @ (coef_dense * submask)` (line 405). -/
def termM (n : ℕ) (p : ℚ) (S T : ℕ) : ℚ :=
  ∑ R ∈ Finset.range (2 ^ n), bpMasked n p S R * (coefQ n R T * subInd n R T)

/-- `part = (bp_masked + term) * submask` (line 406). -/
def partM (n : ℕ) (p : ℚ) (S T : ℕ) : ℚ :=
  (bpMasked n p S T + termM n p S T) * subInd n S T

/-- `evalue = (svalue * part).sum(axis=1)` followed by the override
`evalue[0] = svalue[0]` (lines 407–409). -/
def evalue (n : ℕ) (p : ℚ) (v : ℕ → ℚ) (S : ℕ) : ℚ :=
  if S = 0 then v 0 else ∑ T ∈ Finset.range (2 ^ n), v T * partM n p S T

/-- Inclusion–exclusion over a bitmask: the signed count of the sub-coalitions
of `D` vanishes unless `D` is empty. -/
theorem sum_neg_one_pow_subsets (n D : ℕ) (hD : D < 2 ^ n) :
    ∑ U ∈ (Finset.range (2 ^ n)).filter (fun U => bsub U D), (-1 : ℚ) ^ size n U
      = if D = 0 then 1 else 0 := by
  by_cases hD0 : D = 0
  · subst hD0
    rw [if_pos rfl]
    have hset : (Finset.range (2 ^ n)).filter (fun U => bsub U 0) = {0} := by
      ext U
      rw [Finset.mem_filter, Finset.mem_singleton, Finset.mem_range]
      constructor
      · rintro ⟨_, h⟩; exact bsub_zero_right.mp h
      · rintro rfl
        exact ⟨Nat.pos_pow_of_pos n (by omega), bsub_zero_left 0⟩
    rw [hset, Finset.sum_singleton, size_zero_right]
    norm_num
  · rw [if_neg hD0]
    obtain ⟨k, hk⟩ := Nat.ne_zero_implies_bit_true hD0
    have hkn : k < n := by
      by_contra hx
      have : D.testBit k = false :=
        Nat.testBit_lt_two_pow (lt_of_lt_of_le hD (Nat.pow_le_pow_right (by omega) (by omega)))
      rw [this] at hk; cases hk
    refine Finset.sum_involution (fun U _ => U ^^^ 2 ^ k) ?_ ?_ ?_ ?_
    · intro U hU
      rw [size_xor_two_pow hkn]
      by_cases hb : U.testBit k
      · rw [if_pos hb]
        have h1 : 1 ≤ size n U := one_le_size_of_testBit hkn hb
        have h2 : size n U = (size n U - 1) + 1 := by omega
        rw [h2, pow_succ]
        have h3 : size n U - 1 + 1 - 1 = size n U - 1 := by omega
        rw [h3]
        ring
      · rw [if_neg hb, pow_succ]
        ring
    · intro U hU _
      intro he
      have := congrArg (fun x => x.testBit k) he
      simp only [Nat.testBit_xor, Nat.testBit_two_pow_self] at this
      by_cases hb : U.testBit k <;> simp [hb] at this
    · intro U hU
      rw [Finset.mem_filter, Finset.mem_range] at hU ⊢
      constructor
      · exact Nat.xor_lt_two_pow hU.1 (Nat.pow_lt_pow_right (by omega) hkn)
      · rw [bsub_iff]
        intro m hm
        rw [Nat.testBit_xor] at hm
        by_cases hmk : m = k
        · subst hmk; exact hk
        · rw [Nat.testBit_two_pow_of_ne (fun he => hmk he.symm)] at hm
          simp only [Bool.xor_false] at hm
          exact bsub_iff.mp hU.2 m hm
    · intro U hU
      show (U ^^^ 2 ^ k) ^^^ 2 ^ k = U
      rw [Nat.xor_assoc, Nat.xor_self, Nat.xor_zero]

/-- Inclusion–exclusion over the interval of coalitions between `T` and `S`. -/
theorem sum_subsets_between (n S T : ℕ) (hS : S < 2 ^ n) (hT : T < 2 ^ n) (hsub : bsub T S) :
    ∑ R ∈ (Finset.range (2 ^ n)).filter (fun R => bsub T R ∧ bsub R S),
        (-1 : ℚ) ^ (size n R + size n T)
      = if S = T then 1 else 0 := by
  have hD : S ^^^ T < 2 ^ n := Nat.xor_lt_two_pow hS hT
  have key : ∑ R ∈ (Finset.range (2 ^ n)).filter (fun R => bsub T R ∧ bsub R S),
        (-1 : ℚ) ^ (size n R + size n T)
      = ∑ U ∈ (Finset.range (2 ^ n)).filter (fun U => bsub U (S ^^^ T)),
        (-1 : ℚ) ^ size n U := by
    refine Finset.sum_nbij' (fun R => R ^^^ T) (fun U => U ^^^ T) ?_ ?_ ?_ ?_ ?_
    · intro R hR
      rw [Finset.mem_filter] at hR ⊢
      exact ⟨Finset.mem_range.mpr (Nat.xor_lt_two_pow (Finset.mem_range.mp hR.1) hT),
        bsub_xor_xor hR.2.1 hR.2.2⟩
    · intro U hU
      rw [Finset.mem_filter] at hU ⊢
      obtain ⟨h1, h2⟩ := bsub_xor_back hsub hU.2
      exact ⟨Finset.mem_range.mpr (Nat.xor_lt_two_pow (Finset.mem_range.mp hU.1) hT), h1, h2⟩
    · intro R _
      show (R ^^^ T) ^^^ T = R
      rw [Nat.xor_assoc, Nat.xor_self, Nat.xor_zero]
    · intro U _
      show (U ^^^ T) ^^^ T = U
      rw [Nat.xor_assoc, Nat.xor_self, Nat.xor_zero]
    · intro R hR
      rw [Finset.mem_filter] at hR
      have hadd : size n (R ^^^ T) + size n T = size n R := size_xor_add_of_bsub hR.2.1 n
      have hexp : size n R + size n T = size n (R ^^^ T) + (size n T + size n T) := by
        omega
      rw [hexp, pow_add, Even.neg_one_pow ⟨size n T, rfl⟩, mul_one]
  rw [key, sum_neg_one_pow_subsets n (S ^^^ T) hD]
  by_cases he : S = T
  · subst he
    rw [if_pos rfl, if_pos (Nat.xor_self S)]
  · rw [if_neg he, if_neg fun hx => he (Nat.xor_eq_zero.mp hx)]

theorem subInd_eq_one {n S T : ℕ} (hT : T < 2 ^ n) (h : bsub T S) : subInd n S T = 1 := by
  unfold subInd
  rw [if_pos ((submask_iff hT).mpr h)]

theorem subInd_eq_zero {n S T : ℕ} (hT : T < 2 ^ n) (h : ¬bsub T S) : subInd n S T = 0 := by
  unfold subInd
  rw [if_neg fun hx => h ((submask_iff hT).mp hx)]

theorem termM_one {n S T : ℕ} (hS : S < 2 ^ n) (hT : T < 2 ^ n) (hsub : bsub T S) :
    termM n 1 S T = (if S = T then 1 else 0) - 1 := by
  unfold termM bpMasked basePQ
  simp only [one_pow, one_mul]
  have step1 : ∀ R ∈ Finset.range (2 ^ n),
      subInd n S R * (coefQ n R T * subInd n R T)
        = if bsub T R ∧ bsub R S then coefQ n R T else 0 := by
    intro R hR
    have hRlt := Finset.mem_range.mp hR
    by_cases h1 : bsub R S
    · by_cases h2 : bsub T R
      · rw [subInd_eq_one hRlt h1, subInd_eq_one hT h2, if_pos ⟨h2, h1⟩]
        ring
      · rw [subInd_eq_zero hT h2, if_neg fun hx => h2 hx.1]
        ring
    · rw [subInd_eq_zero hRlt h1, if_neg fun hx => h1 hx.2]
      ring
  rw [Finset.sum_congr rfl step1, ← Finset.sum_filter]
  have hTmem : T ∈ (Finset.range (2 ^ n)).filter (fun R => bsub T R ∧ bsub R S) :=
    Finset.mem_filter.mpr ⟨Finset.mem_range.mpr hT, bsub_refl T, hsub⟩
  have step2 : ∀ R ∈ (Finset.range (2 ^ n)).filter (fun R => bsub T R ∧ bsub R S),
      coefQ n R T = if T = R then 0 else (-1 : ℚ) ^ (size n R + size n T) := by
    intro R hR
    rw [Finset.mem_filter] at hR
    unfold coefQ
    rw [codeCoef_entry_eq, coefRec_char n R T (Finset.mem_range.mp hR.1) hT]
    by_cases he : T = R
    · rw [if_neg fun hx => hx.2 he, if_pos he]
      norm_num
    · rw [if_pos ⟨hR.2.1, he⟩, if_neg he]
      push_cast
      ring
  rw [Finset.sum_congr rfl step2]
  rw [Finset.sum_eq_sum_diff_singleton_add hTmem, if_pos rfl, add_zero]
  have step3 : ∀ R ∈ (Finset.range (2 ^ n)).filter (fun R => bsub T R ∧ bsub R S) \ {T},
      (if T = R then (0 : ℚ) else (-1) ^ (size n R + size n T))
        = (-1) ^ (size n R + size n T) := by
    intro R hR
    rw [Finset.mem_sdiff, Finset.mem_singleton] at hR
    rw [if_neg fun he => hR.2 he.symm]
  rw [Finset.sum_congr rfl step3]
  have hfull := sum_subsets_between n S T hS hT hsub
  rw [Finset.sum_eq_sum_diff_singleton_add hTmem,
    Even.neg_one_pow ⟨size n T, rfl⟩] at hfull
  linarith [hfull]

theorem partM_one {n S T : ℕ} (hS : S < 2 ^ n) (hT : T < 2 ^ n) :
    partM n 1 S T = if S = T then 1 else 0 := by
  unfold partM
  by_cases hsub : bsub T S
  · rw [termM_one hS hT hsub]
    unfold bpMasked basePQ
    rw [subInd_eq_one hT hsub, one_pow]
    by_cases he : S = T
    · rw [if_pos he]; ring
    · rw [if_neg he]; ring
  · rw [subInd_eq_zero hT hsub, mul_zero]
    rw [if_neg fun he => hsub (by rw [he]; exact bsub_refl T)]

/-- C3: with `operator_uptime = 1`, the expectation transform of
`network_shapley` is the identity on the coalition-value vector: for every
finite coalition-value vector `v` and every coalition index `S`, the
expected value `E[v](S)` equals `v(S)`. -/
theorem c3_expectation_identity_uptime_one (n : ℕ) (v : ℕ → ℚ) (S : ℕ) (hS : S < 2 ^ n) :
    evalue n 1 v S = v S := by
  unfold evalue
  by_cases h0 : S = 0
  · rw [if_pos h0, h0]
  · rw [if_neg h0]
    have hterm : ∀ T ∈ Finset.range (2 ^ n),
        v T * partM n 1 S T = if T = S then v T else 0 := by
      intro T hT
      rw [partM_one hS (Finset.mem_range.mp hT)]
      by_cases he : S = T
      · rw [if_pos he, if_pos he.symm]; ring
      · rw [if_neg he, if_neg fun hx => he hx.symm]; ring
    rw [Finset.sum_congr rfl hterm, Finset.sum_ite_eq' (Finset.range (2 ^ n)) S v,
      if_pos (Finset.mem_range.mpr hS)]

theorem c3_expectation_identity_uptime_one_witness :
    (1 : ℕ) < 2 ^ 1 ∧ evalue 1 1 (fun _ => (5 : ℚ)) 1 = 5 :=
  ⟨by norm_num, c3_expectation_identity_uptime_one 1 (fun _ => (5 : ℚ)) 1 (by norm_num)⟩

/-! ### Adding `2 ^ k` to a number whose bit `k` is clear -/

theorem testBit_add_two_pow_of_not {j k : ℕ} (h : j.testBit k = false) (m : ℕ) :
    (j + 2 ^ k).testBit m = (j.testBit m || decide (m = k)) := by
  have hmod : j % 2 ^ (k + 1) < 2 ^ k := by
    apply Nat.lt_pow_two_of_testBit
    intro i hi
    by_cases hik : i = k
    · subst hik
      rw [Nat.testBit_mod_two_pow]
      simp [h]
    · have h1 : j % 2 ^ (k + 1) < 2 ^ (k + 1) :=
        Nat.mod_lt _ (Nat.pos_pow_of_pos _ (by omega))
      exact Nat.testBit_lt_two_pow
        (lt_of_lt_of_le h1 (Nat.pow_le_pow_right (by omega) (by omega)))
  have hdm := Nat.div_add_mod j (2 ^ (k + 1))
  have hb2 : j % 2 ^ (k + 1) + 2 ^ k < 2 ^ (k + 1) := by
    have : 2 ^ (k + 1) = 2 ^ k + 2 ^ k := by ring
    omega
  have hb1 : j % 2 ^ (k + 1) < 2 ^ (k + 1) :=
    Nat.mod_lt _ (Nat.pos_pow_of_pos _ (by omega))
  rw [show j + 2 ^ k = 2 ^ (k + 1) * (j / 2 ^ (k + 1)) + (j % 2 ^ (k + 1) + 2 ^ k) by omega]
  rw [Nat.testBit_mul_pow_two_add _ hb2 m]
  conv_rhs => rw [show j = 2 ^ (k + 1) * (j / 2 ^ (k + 1)) + j % 2 ^ (k + 1) by omega]
  rw [Nat.testBit_mul_pow_two_add _ hb1 m]
  by_cases hm : m < k + 1
  · rw [if_pos hm, if_pos hm]
    by_cases hmk : m = k
    · rw [hmk]
      have hbk : (j % 2 ^ (k + 1)).testBit k = false :=
        Nat.testBit_lt_two_pow hmod
      rw [show j % 2 ^ (k + 1) + 2 ^ k = 2 ^ k + j % 2 ^ (k + 1) by omega,
        Nat.testBit_two_pow_add_eq, hbk]
      simp
    · have hlt : m < k := by omega
      rw [show j % 2 ^ (k + 1) + 2 ^ k = 2 ^ k + j % 2 ^ (k + 1) by omega,
        Nat.testBit_two_pow_add_gt hlt]
      simp [hmk]
  · rw [if_neg hm, if_neg hm]
    have hmk : m ≠ k := by omega
    simp [hmk]

theorem lt_two_pow_add_of_not {n j k : ℕ} (hj : j < 2 ^ n) (hk : k < n)
    (h : j.testBit k = false) : j + 2 ^ k < 2 ^ n := by
  apply Nat.lt_pow_two_of_testBit
  intro i hi
  rw [testBit_add_two_pow_of_not h i]
  have h1 : j.testBit i = false :=
    Nat.testBit_lt_two_pow (lt_of_lt_of_le hj (Nat.pow_le_pow_right (by omega) (by omega)))
  have h2 : i ≠ k := by omega
  simp [h1, h2]

theorem size_add_two_pow {n j k : ℕ} (hk : k < n) (h : j.testBit k = false) :
    size n (j + 2 ^ k) = size n j + 1 := by
  have hmem : k ∈ Finset.range n := Finset.mem_range.mpr hk
  have hoff : ∀ m ∈ Finset.range n \ {k}, bitv m (j + 2 ^ k) = bitv m j := by
    intro m hm
    rw [Finset.mem_sdiff, Finset.mem_singleton] at hm
    rw [bitv_eq_testBit, bitv_eq_testBit, testBit_add_two_pow_of_not h]
    simp [hm.2]
  have e1 : size n (j + 2 ^ k) =
      (∑ m ∈ Finset.range n \ {k}, bitv m j) + bitv k (j + 2 ^ k) := by
    unfold size
    rw [Finset.sum_eq_sum_diff_singleton_add hmem]
    congr 1
    exact Finset.sum_congr rfl hoff
  have e2 : size n j = (∑ m ∈ Finset.range n \ {k}, bitv m j) + bitv k j := by
    unfold size
    rw [Finset.sum_eq_sum_diff_singleton_add hmem]
  have hx1 : bitv k (j + 2 ^ k) = 1 := by
    rw [bitv_eq_testBit, testBit_add_two_pow_of_not h]
    simp
  have hx0 : bitv k j = 0 := by
    rw [bitv_eq_testBit, h]
    simp
  omega

/-! ### Shapley aggregation and output rows (lines 411–428) -/

/-- Rational image of `math.factorial`. -/
def factQ (m : ℕ) : ℚ := (Nat.factorial m : ℚ)

/-- `shapley[k]` (lines 414–418): over every coalition index containing bit
`k`, weight `(size-1)! * (n_ops-size)! / n_ops!` times the marginal
`evalue[with_op] - evalue[without_op]`, with `without_op = with_op - 2^k`. -/
def shapleyVal (n : ℕ) (ev : ℕ → ℚ) (k : ℕ) : ℚ :=
  ∑ idx ∈ (Finset.range (2 ^ n)).filter (fun idx => bitv k idx = 1),
    factQ (size n idx - 1) * factQ (n - size n idx) / factQ n
      * (ev idx - ev (idx - 2 ^ k))

/-- `percent` (lines 420–422): clamp the Shapley vector at zero and normalise
it when the clamped total is positive, else leave it as the clamped values. -/
def percentVal (n : ℕ) (sh : ℕ → ℚ) (k : ℕ) : ℚ :=
  if 0 < ∑ j ∈ Finset.range n, max (sh j) 0
  then max (sh k) 0 / ∑ j ∈ Finset.range n, max (sh j) 0
  else max (sh k) 0

/-- `np.round(x, 4)`; numpy rounds half to even while `round` rounds half up,
which agree away from exact half-ulp ties — in particular at `0`. -/
def round4 (x : ℚ) : ℚ := (round (x * 10000) : ℚ) / 10000

theorem basePQ_zero {n T : ℕ} (hT : T < 2 ^ n) :
    basePQ n 0 T = if T = 0 then 1 else 0 := by
  unfold basePQ
  by_cases h : T = 0
  · rw [if_pos h, h, size_zero_right, pow_zero]
  · rw [if_neg h]
    exact zero_pow fun hx => h ((size_eq_zero_iff hT).mp hx)

theorem partM_zero {n S T : ℕ} (hT : T < 2 ^ n) :
    partM n 0 S T = if T = 0 then 1 else 0 := by
  have h0lt : (0 : ℕ) < 2 ^ n := Nat.pos_pow_of_pos n (by omega)
  have hterm : termM n 0 S T = 0 := by
    unfold termM bpMasked
    have hstep : ∀ R ∈ Finset.range (2 ^ n),
        basePQ n 0 R * subInd n S R * (coefQ n R T * subInd n R T)
          = if R = 0 then coefQ n 0 T * subInd n 0 T else 0 := by
      intro R hR
      rw [basePQ_zero (Finset.mem_range.mp hR)]
      by_cases h : R = 0
      · rw [if_pos h, if_pos h, h, subInd_eq_one h0lt (bsub_zero_left S)]
        ring
      · rw [if_neg h, if_neg h]
        ring
    rw [Finset.sum_congr rfl hstep,
      Finset.sum_ite_eq' (Finset.range (2 ^ n)) 0 fun _ => coefQ n 0 T * subInd n 0 T,
      if_pos (Finset.mem_range.mpr h0lt)]
    by_cases hT0 : T = 0
    · subst hT0
      have hc : coefQ n 0 0 = 0 := by
        unfold coefQ
        rw [codeCoef_entry_eq, coefRec_char n 0 0 h0lt h0lt,
          if_neg fun hx => hx.2 rfl]
        rfl
      rw [hc, zero_mul]
    · rw [subInd_eq_zero hT fun hx => hT0 (bsub_zero_right.mp hx), mul_zero]
  unfold partM bpMasked
  rw [hterm, add_zero, basePQ_zero hT]
  by_cases hT0 : T = 0
  · rw [if_pos hT0, hT0, subInd_eq_one h0lt (bsub_zero_left S)]
    ring
  · rw [if_neg hT0]
    ring

theorem evalue_zero {n : ℕ} (v : ℕ → ℚ) (S : ℕ) :
    evalue n 0 v S = v 0 := by
  unfold evalue
  by_cases h0 : S = 0
  · rw [if_pos h0]
  · rw [if_neg h0]
    have hterm : ∀ T ∈ Finset.range (2 ^ n),
        v T * partM n 0 S T = if T = 0 then v T else 0 := by
      intro T hT
      rw [partM_zero (Finset.mem_range.mp hT)]
      by_cases he : T = 0
      · rw [if_pos he, if_pos he]; ring
      · rw [if_neg he, if_neg he]; ring
    rw [Finset.sum_congr rfl hterm, Finset.sum_ite_eq' (Finset.range (2 ^ n)) 0 v,
      if_pos (Finset.mem_range.mpr (Nat.pos_pow_of_pos n (by omega)))]

/-- C10: with `operator_uptime = 0` and at least one operator, the
expectation transform collapses every expected coalition value to the
empty-coalition value, so every operator's output `Value` is `0` and every
`Percent` is `0`. -/
theorem c10_uptime_zero_collapse (n : ℕ) (_hn : 1 ≤ n) (v : ℕ → ℚ) :
    (∀ S, S < 2 ^ n → evalue n 0 v S = v 0) ∧
    (∀ k, k < n → round4 (shapleyVal n (evalue n 0 v) k) = 0 ∧
      percentVal n (shapleyVal n (evalue n 0 v)) k = 0) := by
  have hev : ∀ S, S < 2 ^ n → evalue n 0 v S = v 0 := fun S _ => evalue_zero v S
  have hsh : ∀ k, shapleyVal n (evalue n 0 v) k = 0 := by
    intro k
    unfold shapleyVal
    apply Finset.sum_eq_zero
    intro idx _
    rw [evalue_zero, evalue_zero]
    ring
  refine ⟨hev, fun k hk => ⟨?_, ?_⟩⟩
  · rw [hsh k]
    unfold round4
    norm_num
  · unfold percentVal
    have hsum : ∑ j ∈ Finset.range n, max (shapleyVal n (evalue n 0 v) j) 0 = 0 := by
      apply Finset.sum_eq_zero
      intro j _
      rw [hsh j]
      simp
    rw [hsum, hsh k]
    norm_num

theorem c10_uptime_zero_collapse_witness :
    (1 : ℕ) ≤ 1 ∧
      ((∀ S, S < 2 ^ 1 → evalue 1 0 (fun _ => (7 : ℚ)) S = 7) ∧
        (∀ k, k < 1 → round4 (shapleyVal 1 (evalue 1 0 fun _ => (7 : ℚ)) k) = 0 ∧
          percentVal 1 (shapleyVal 1 (evalue 1 0 fun _ => (7 : ℚ))) k = 0)) :=
  ⟨by norm_num, c10_uptime_zero_collapse 1 (by norm_num) fun _ => (7 : ℚ)⟩

theorem bitv_eq_one_iff {k x : ℕ} : bitv k x = 1 ↔ x.testBit k = true := by
  rw [bitv_eq_testBit]
  by_cases h : x.testBit k <;> simp [h]

theorem bitv_eq_zero_iff {k x : ℕ} : bitv k x = 0 ↔ x.testBit k = false := by
  rw [bitv_eq_testBit]
  by_cases h : x.testBit k <;> simp [h]

theorem factQ_ne_zero (m : ℕ) : factQ m ≠ 0 := by
  unfold factQ
  have := Nat.factorial_pos m
  positivity

theorem factQ_mul_pred {s : ℕ} (hs : 1 ≤ s) : (s : ℚ) * factQ (s - 1) = factQ s := by
  unfold factQ
  exact_mod_cast congrArg (fun x : ℕ => (x : ℚ)) (Nat.mul_factorial_pred (by omega))

theorem count_bits_one (n idx : ℕ) (c : ℚ) :
    ∑ k ∈ Finset.range n, (if bitv k idx = 1 then c else 0) = (size n idx : ℚ) * c := by
  have hpt : ∀ k ∈ Finset.range n,
      (if bitv k idx = 1 then c else 0) = (bitv k idx : ℚ) * c := by
    intro k _
    rw [bitv_eq_testBit]
    by_cases h : idx.testBit k <;> simp [h]
  rw [Finset.sum_congr rfl hpt, ← Finset.sum_mul]
  congr 1
  unfold size
  push_cast
  rfl

theorem count_bits_zero (n idx : ℕ) (c : ℚ) :
    ∑ k ∈ Finset.range n, (if bitv k idx = 0 then c else 0)
      = ((n : ℚ) - (size n idx : ℚ)) * c := by
  have hpt : ∀ k ∈ Finset.range n,
      (if bitv k idx = 0 then c else 0) = (1 - (bitv k idx : ℚ)) * c := by
    intro k _
    rw [bitv_eq_testBit]
    by_cases h : idx.testBit k <;> simp [h]
  rw [Finset.sum_congr rfl hpt, ← Finset.sum_mul]
  congr 1
  rw [Finset.sum_sub_distrib, Finset.sum_const, Finset.card_range]
  unfold size
  push_cast
  ring

theorem shapley_reindex {n k : ℕ} (hk : k < n) (ev : ℕ → ℚ) :
    (∑ idx ∈ (Finset.range (2 ^ n)).filter (fun idx => bitv k idx = 1),
      factQ (size n idx - 1) * factQ (n - size n idx) / factQ n * ev (idx - 2 ^ k))
    = ∑ j ∈ (Finset.range (2 ^ n)).filter (fun j => bitv k j = 0),
      factQ (size n j) * factQ (n - size n j - 1) / factQ n * ev j := by
  refine Finset.sum_nbij' (fun idx => idx - 2 ^ k) (fun j => j + 2 ^ k) ?_ ?_ ?_ ?_ ?_
  · intro idx hidx
    rw [Finset.mem_filter, Finset.mem_range] at hidx ⊢
    have hbit : idx.testBit k = true := bitv_eq_one_iff.mp hidx.2
    have hge : 2 ^ k ≤ idx := Nat.testBit_implies_ge hbit
    show idx - 2 ^ k < 2 ^ n ∧ bitv k (idx - 2 ^ k) = 0
    refine ⟨lt_of_le_of_lt (Nat.sub_le idx (2 ^ k)) hidx.1, bitv_eq_zero_iff.mpr ?_⟩
    have heq : 2 ^ k + (idx - 2 ^ k) = idx := by omega
    have h2 := Nat.testBit_two_pow_add_eq (idx - 2 ^ k) k
    rw [heq, hbit] at h2
    cases hx : (idx - 2 ^ k).testBit k
    · rfl
    · rw [hx] at h2
      simp at h2
  · intro j hj
    rw [Finset.mem_filter, Finset.mem_range] at hj ⊢
    have hbit : j.testBit k = false := bitv_eq_zero_iff.mp hj.2
    show j + 2 ^ k < 2 ^ n ∧ bitv k (j + 2 ^ k) = 1
    refine ⟨lt_two_pow_add_of_not hj.1 hk hbit, bitv_eq_one_iff.mpr ?_⟩
    rw [testBit_add_two_pow_of_not hbit k]
    simp
  · intro idx hidx
    rw [Finset.mem_filter] at hidx
    have hge : 2 ^ k ≤ idx := Nat.testBit_implies_ge (bitv_eq_one_iff.mp hidx.2)
    show idx - 2 ^ k + 2 ^ k = idx
    omega
  · intro j _
    show j + 2 ^ k - 2 ^ k = j
    omega
  · intro idx hidx
    rw [Finset.mem_filter] at hidx
    have hbit : idx.testBit k = true := bitv_eq_one_iff.mp hidx.2
    have hge : 2 ^ k ≤ idx := Nat.testBit_implies_ge hbit
    have hbit0 : (idx - 2 ^ k).testBit k = false := by
      have heq : 2 ^ k + (idx - 2 ^ k) = idx := by omega
      have h2 := Nat.testBit_two_pow_add_eq (idx - 2 ^ k) k
      rw [heq, hbit] at h2
      cases hx : (idx - 2 ^ k).testBit k
      · rfl
      · rw [hx] at h2
        simp at h2
    have hsz : size n idx = size n (idx - 2 ^ k) + 1 := by
      have heq : (idx - 2 ^ k) + 2 ^ k = idx := by omega
      have h3 := size_add_two_pow hk hbit0
      rw [heq] at h3
      exact h3
    rw [hsz, Nat.add_sub_cancel, ← Nat.sub_sub]

/-- C4: for every operator count `n ≥ 1` and every vector of expected
coalition values, the Shapley values computed by the aggregator satisfy
efficiency: they sum to `E[v](full_set) - E[v](∅)`, exactly, over exact
arithmetic. -/
theorem c4_shapley_efficiency (n : ℕ) (hn : 1 ≤ n) (ev : ℕ → ℚ) :
    ∑ k ∈ Finset.range n, shapleyVal n ev k = ev (2 ^ n - 1) - ev 0 := by
  have h2le : (2 : ℕ) ≤ 2 ^ n := by
    calc (2 : ℕ) = 2 ^ 1 := by norm_num
      _ ≤ 2 ^ n := Nat.pow_le_pow_right (by omega) hn
  have hstep : ∀ k ∈ Finset.range n, shapleyVal n ev k =
      (∑ idx ∈ Finset.range (2 ^ n),
        if bitv k idx = 1 then
          factQ (size n idx - 1) * factQ (n - size n idx) / factQ n * ev idx else 0)
      - (∑ j ∈ Finset.range (2 ^ n),
        if bitv k j = 0 then
          factQ (size n j) * factQ (n - size n j - 1) / factQ n * ev j else 0) := by
    intro k hk
    unfold shapleyVal
    have hsub : (∑ idx ∈ (Finset.range (2 ^ n)).filter (fun idx => bitv k idx = 1),
          factQ (size n idx - 1) * factQ (n - size n idx) / factQ n
            * (ev idx - ev (idx - 2 ^ k)))
        = (∑ idx ∈ (Finset.range (2 ^ n)).filter (fun idx => bitv k idx = 1),
            factQ (size n idx - 1) * factQ (n - size n idx) / factQ n * ev idx)
          - ∑ idx ∈ (Finset.range (2 ^ n)).filter (fun idx => bitv k idx = 1),
              factQ (size n idx - 1) * factQ (n - size n idx) / factQ n
                * ev (idx - 2 ^ k) := by
      rw [← Finset.sum_sub_distrib]
      apply Finset.sum_congr rfl
      intro idx _
      ring
    rw [hsub, shapley_reindex (Finset.mem_range.mp hk) ev, Finset.sum_filter,
      Finset.sum_filter]
  rw [Finset.sum_congr rfl hstep, Finset.sum_sub_distrib]
  have h1 : (∑ k ∈ Finset.range n, ∑ idx ∈ Finset.range (2 ^ n),
        if bitv k idx = 1 then
          factQ (size n idx - 1) * factQ (n - size n idx) / factQ n * ev idx else 0)
      = ∑ idx ∈ Finset.range (2 ^ n), (size n idx : ℚ)
          * (factQ (size n idx - 1) * factQ (n - size n idx) / factQ n * ev idx) := by
    rw [Finset.sum_comm]
    exact Finset.sum_congr rfl fun idx _ => count_bits_one n idx _
  have h2 : (∑ k ∈ Finset.range n, ∑ j ∈ Finset.range (2 ^ n),
        if bitv k j = 0 then
          factQ (size n j) * factQ (n - size n j - 1) / factQ n * ev j else 0)
      = ∑ j ∈ Finset.range (2 ^ n), ((n : ℚ) - (size n j : ℚ))
          * (factQ (size n j) * factQ (n - size n j - 1) / factQ n * ev j) := by
    rw [Finset.sum_comm]
    exact Finset.sum_congr rfl fun j _ => count_bits_zero n j _
  rw [h1, h2, ← Finset.sum_sub_distrib]
  have hFne : factQ n ≠ 0 := factQ_ne_zero n
  have hf0 : factQ 0 = 1 := by
    unfold factQ
    norm_num [Nat.factorial]
  have hcoef : ∀ idx ∈ Finset.range (2 ^ n),
      (size n idx : ℚ)
          * (factQ (size n idx - 1) * factQ (n - size n idx) / factQ n * ev idx)
        - ((n : ℚ) - (size n idx : ℚ))
            * (factQ (size n idx) * factQ (n - size n idx - 1) / factQ n * ev idx)
      = (if idx = 2 ^ n - 1 then ev idx else 0) - (if idx = 0 then ev idx else 0) := by
    intro idx hidx
    have hlt := Finset.mem_range.mp hidx
    have hsle : size n idx ≤ n := size_le n idx
    by_cases h0 : idx = 0
    · subst h0
      have hne : ¬((0 : ℕ) = 2 ^ n - 1) := by omega
      rw [if_neg hne, if_pos rfl, size_zero_right]
      simp only [Nat.zero_sub, Nat.sub_zero, Nat.cast_zero, hf0]
      have e1 : (n : ℚ) * factQ (n - 1) = factQ n := factQ_mul_pred hn
      have hform : (0 : ℚ) * (1 * factQ n / factQ n * ev 0)
          - ((n : ℚ) - 0) * (1 * factQ (n - 1) / factQ n * ev 0)
          = -(((n : ℚ) * factQ (n - 1)) / factQ n * ev 0) := by ring
      rw [hform, e1, div_self hFne, one_mul]
      ring
    · by_cases hfull : idx = 2 ^ n - 1
      · subst hfull
        have hne0 : ¬(2 ^ n - 1 = 0) := by omega
        rw [if_pos rfl, if_neg hne0, (size_eq_n_iff hlt).mpr rfl]
        simp only [Nat.sub_self, Nat.zero_sub, Nat.cast_zero, hf0]
        have e1 : (n : ℚ) * factQ (n - 1) = factQ n := factQ_mul_pred hn
        have hform : (n : ℚ) * (factQ (n - 1) * 1 / factQ n * ev (2 ^ n - 1))
            - ((n : ℚ) - (n : ℚ)) * (factQ n * 1 / factQ n * ev (2 ^ n - 1))
            = ((n : ℚ) * factQ (n - 1)) / factQ n * ev (2 ^ n - 1) := by ring
        rw [hform, e1, div_self hFne, one_mul]
        ring
      · have hspos : 1 ≤ size n idx := by
          rcases Nat.eq_zero_or_pos (size n idx) with h | h
          · exact absurd ((size_eq_zero_iff hlt).mp h) h0
          · omega
        have hslt : size n idx < n := by
          rcases lt_or_eq_of_le hsle with h | h
          · exact h
          · exact absurd ((size_eq_n_iff hlt).mp h) hfull
        rw [if_neg hfull, if_neg h0]
        have e1 : (size n idx : ℚ) * factQ (size n idx - 1) = factQ (size n idx) :=
          factQ_mul_pred hspos
        have e2 : ((n - size n idx : ℕ) : ℚ) * factQ (n - size n idx - 1)
            = factQ (n - size n idx) := factQ_mul_pred (by omega)
        have e3 : ((n : ℚ) - (size n idx : ℚ)) = ((n - size n idx : ℕ) : ℚ) :=
          (Nat.cast_sub hsle).symm
        rw [e3]
        have hform : (size n idx : ℚ)
              * (factQ (size n idx - 1) * factQ (n - size n idx) / factQ n * ev idx)
            - ((n - size n idx : ℕ) : ℚ)
              * (factQ (size n idx) * factQ (n - size n idx - 1) / factQ n * ev idx)
            = ((size n idx : ℚ) * factQ (size n idx - 1)) * factQ (n - size n idx)
                / factQ n * ev idx
              - (((n - size n idx : ℕ) : ℚ) * factQ (n - size n idx - 1))
                * factQ (size n idx) / factQ n * ev idx := by ring
        rw [hform, e1, e2]
        ring
  rw [Finset.sum_congr rfl hcoef, Finset.sum_sub_distrib,
    Finset.sum_ite_eq' (Finset.range (2 ^ n)) (2 ^ n - 1) ev,
    Finset.sum_ite_eq' (Finset.range (2 ^ n)) 0 ev,
    if_pos (Finset.mem_range.mpr (by omega)),
    if_pos (Finset.mem_range.mpr (by omega))]

theorem c4_shapley_efficiency_witness :
    (1 : ℕ) ≤ 2 ∧
      ∑ k ∈ Finset.range 2, shapleyVal 2 (fun i => (i : ℚ) * i) k
        = (fun i : ℕ => (i : ℚ) * i) (2 ^ 2 - 1) - (fun i : ℕ => (i : ℚ) * i) 0 :=
  ⟨by norm_num, c4_shapley_efficiency 2 (by norm_num) fun i => (i : ℚ) * i⟩

/-- C1 counterexample: after one loop iteration the code's matrix has entry
`(1, 0)` equal to `-1`, whereas one application of the block recursion
starting from `M_0 = [[1]]` — the base case written in the specification —
gives `-2` there, so the two matrices differ. -/
theorem c1_base_case_counterexample :
    spEntry (codeCoef 1) 1 0 = -1 ∧ specCoefRec 1 1 0 = -2 ∧
      spEntry (codeCoef 1) 1 0 ≠ specCoefRec 1 1 0 := by
  refine ⟨by decide, by decide, ?_⟩
  intro h
  rw [show spEntry (codeCoef 1) 1 0 = -1 by decide,
    show specCoefRec 1 1 0 = -2 by decide] at h
  cases h

/-- C1 (amended): the integer coefficient matrix built by the loop in
`network_shapley` is exactly the block recursion
`M_{i+1} = [[M_i, 0], [-M_i - I, M_i]]` with base case the 1×1 zero matrix
`M_0 = [[0]]` (and not `[[1]]`). -/
theorem c1_coef_matrix_recursion : ∀ n r t, spEntry (codeCoef n) r t = coefRec n r t :=
  codeCoef_entry_eq

/-! ### The coalition LP worker `_solve_coalition_lp_worker` (lines 255–327) -/

/-- Boolean-mask indexing `arr[mask]` over aligned lists. -/
def maskList {α : Type} (mask : List Bool) (xs : List α) : List α :=
  ((mask.zip xs).filter fun p => p.1).map fun p => p.2

/-- `_solve_coalition_lp_worker` after the masks are computed: `cost` and the
columns `aeq` of `A_eq` are restricted to `colMask`; if no variable remains,
the value is `0` when `b_eq` is all zero and `-inf` otherwise; otherwise the
result of the `linprog` call decides (`some optval` on success, with the
worker returning `-optval`; `none` on non-success, returning `-inf`).
`⊥ : WithBot ℚ` models `-np.inf`. -/
def solveCoalitionLPWorker (cost : List ℚ) (aeq : List (List ℚ)) (colMask : List Bool)
    (beq : List ℚ) (solverRes : Option ℚ) : WithBot ℚ :=
  let costVector := maskList colMask cost
  let aeqCoalition := maskList colMask aeq
  if costVector.length = 0 ∧ aeqCoalition.length = 0 then
    if beq.any fun x => decide (x ≠ 0) then ⊥ else 0
  else
    match solverRes with
    | some optval => ((-optval : ℚ) : WithBot ℚ)
    | none => ⊥

theorem maskList_cons_false {α : Type} (m : List Bool) (x : α) (xs : List α) :
    maskList (false :: m) (x :: xs) = maskList m xs := rfl

theorem maskList_cons_true {α : Type} (m : List Bool) (x : α) (xs : List α) :
    maskList (true :: m) (x :: xs) = x :: maskList m xs := rfl

theorem maskList_length_congr {α β : Type} :
    ∀ (mask : List Bool) (xs : List α) (ys : List β), xs.length = ys.length →
      (maskList mask xs).length = (maskList mask ys).length := by
  intro mask
  induction mask with
  | nil => intro xs ys _; rfl
  | cons b m ih =>
    intro xs ys h
    cases xs with
    | nil =>
      cases ys with
      | nil => rfl
      | cons y ys => simp at h
    | cons x xs =>
      cases ys with
      | nil => simp at h
      | cons y ys =>
        have h' : xs.length = ys.length := by
          simp at h
          omega
        cases b
        · rw [maskList_cons_false, maskList_cons_false]
          exact ih xs ys h'
        · rw [maskList_cons_true, maskList_cons_true]
          simp only [List.length_cons]
          exact congrArg Nat.succ (ih xs ys h')

/-- C5: with zero remaining variables the worker returns `0` if `b_eq`
vanishes and `-inf` otherwise; and whenever the solver reports non-success
on a nonempty problem, the recorded value is `-inf`. -/
theorem c5_worker_edge_cases (cost : List ℚ) (aeq : List (List ℚ)) (colMask : List Bool)
    (beq : List ℚ) (solverRes : Option ℚ) (hlen : aeq.length = cost.length) :
    ((maskList colMask cost).length = 0 →
      ((∀ x ∈ beq, x = 0) →
          solveCoalitionLPWorker cost aeq colMask beq solverRes = 0) ∧
      ((∃ x ∈ beq, x ≠ 0) →
          solveCoalitionLPWorker cost aeq colMask beq solverRes = ⊥)) ∧
    ((maskList colMask cost).length ≠ 0 → solverRes = none →
      solveCoalitionLPWorker cost aeq colMask beq solverRes = ⊥) := by
  have hsame : (maskList colMask aeq).length = (maskList colMask cost).length :=
    maskList_length_congr colMask aeq cost hlen
  unfold solveCoalitionLPWorker
  constructor
  · intro hzero
    have hcond : (maskList colMask cost).length = 0 ∧ (maskList colMask aeq).length = 0 :=
      ⟨hzero, by omega⟩
    rw [if_pos hcond]
    constructor
    · intro hall
      have hany : (beq.any fun x => decide (x ≠ 0)) = false := by
        rw [List.any_eq_false]
        intro x hx
        simp [hall x hx]
      rw [hany]
      rfl
    · rintro ⟨x, hx, hxne⟩
      have hany : (beq.any fun x => decide (x ≠ 0)) = true := by
        rw [List.any_eq_true]
        exact ⟨x, hx, by simp [hxne]⟩
      rw [hany]
      rfl
  · intro hnz hres
    have hcond : ¬((maskList colMask cost).length = 0 ∧ (maskList colMask aeq).length = 0) := by
      rintro ⟨h1, _⟩
      exact hnz h1
    rw [if_neg hcond, hres]

theorem c5_worker_edge_cases_witness :
    ([[(1 : ℚ)]].length = [(1 : ℚ)].length) ∧
      (((maskList [false] [(1 : ℚ)]).length = 0 →
        ((∀ x ∈ [(0 : ℚ)], x = 0) →
            solveCoalitionLPWorker [(1 : ℚ)] [[(1 : ℚ)]] [false] [(0 : ℚ)] none = 0) ∧
        ((∃ x ∈ [(0 : ℚ)], x ≠ 0) →
            solveCoalitionLPWorker [(1 : ℚ)] [[(1 : ℚ)]] [false] [(0 : ℚ)] none = ⊥)) ∧
      ((maskList [false] [(1 : ℚ)]).length ≠ 0 → (none : Option ℚ) = none →
        solveCoalitionLPWorker [(1 : ℚ)] [[(1 : ℚ)]] [false] [(0 : ℚ)] none = ⊥)) :=
  ⟨rfl, c5_worker_edge_cases [(1 : ℚ)] [[(1 : ℚ)]] [false] [(0 : ℚ)] none rfl⟩

/-! ### Operator enumeration and validation (lines 339–344) -/

/-- Fuel-indexed worker for `uniqueList`; the fuel only needs to dominate the
list length. -/
def uniqueListGo {α : Type} [DecidableEq α] : ℕ → List α → List α
  | 0, _ => []
  | _ + 1, [] => []
  | fuel + 1, x :: xs => x :: uniqueListGo fuel (xs.filter fun y => decide (y ≠ x))

/-- First-seen-order deduplication: the semantics of `pd.unique`. -/
def uniqueList {α : Type} [DecidableEq α] (l : List α) : List α :=
  uniqueListGo l.length l

theorem uniqueListGo_fuel_irrel {α : Type} [DecidableEq α] :
    ∀ (f1 f2 : ℕ) (l : List α), l.length ≤ f1 → l.length ≤ f2 →
      uniqueListGo f1 l = uniqueListGo f2 l := by
  intro f1
  induction f1 with
  | zero =>
    intro f2 l h1 _
    have : l = [] := List.length_eq_zero.mp (by omega)
    subst this
    cases f2 <;> rfl
  | succ f ih =>
    intro f2 l h1 h2
    cases l with
    | nil => cases f2 <;> rfl
    | cons x xs =>
      cases f2 with
      | zero => simp at h2
      | succ f2 =>
        show x :: uniqueListGo f (xs.filter fun y => decide (y ≠ x))
          = x :: uniqueListGo f2 (xs.filter fun y => decide (y ≠ x))
        have hle : (xs.filter fun y => decide (y ≠ x)).length ≤ xs.length :=
          List.length_filter_le _ xs
        rw [ih f2 _ (by simp at h1; omega) (by simp at h2; omega)]

theorem uniqueList_nil {α : Type} [DecidableEq α] : uniqueList ([] : List α) = [] := rfl

theorem uniqueList_cons {α : Type} [DecidableEq α] (x : α) (xs : List α) :
    uniqueList (x :: xs) = x :: uniqueList (xs.filter fun y => decide (y ≠ x)) := by
  show uniqueListGo (xs.length + 1) (x :: xs) = _
  show x :: uniqueListGo xs.length (xs.filter fun y => decide (y ≠ x)) = _
  rw [uniqueListGo_fuel_irrel xs.length (xs.filter fun y => decide (y ≠ x)).length _
    (List.length_filter_le _ xs) (le_refl _)]
  rfl

/-- Induction along the recursion of `uniqueList`. -/
theorem uniqueList_induction {α : Type} [DecidableEq α] (P : List α → Prop)
    (h0 : P []) (h1 : ∀ x xs, P (xs.filter fun y => decide (y ≠ x)) → P (x :: xs)) :
    ∀ xs, P xs := by
  intro xs
  generalize hn : xs.length = n
  induction n using Nat.strong_induction_on generalizing xs with
  | _ n ih =>
    cases xs with
    | nil => exact h0
    | cons x rest =>
      apply h1
      refine ih (rest.filter fun y => decide (y ≠ x)).length ?_ _ rfl
      subst hn
      simp only [List.length_cons]
      exact Nat.lt_succ_of_le (List.length_filter_le _ rest)

/-- Lines 339–341: collect `Operator1 ++ Operator2`, dedupe in first-seen
order (`pd.unique`), sort (`np.sort`), then drop the sentinel
(`operators = operators[operators != "0"]`). -/
def enumOperators (op1 op2 : List String) : List String :=
  ((uniqueList (op1 ++ op2)).mergeSort fun a b => decide (a ≤ b)).filter
    fun s => decide (s ≠ "0")

/-- The asserted condition of line 343: `"0" not in operators`.  The
`ValueError` for the reserved name fires iff this is `false`. -/
def zeroNameCheckPasses (op1 op2 : List String) : Bool :=
  decide ("0" ∉ enumOperators op1 op2)

/-- The asserted condition of line 344: `n_ops < 21`. -/
def opCountCheckPasses (op1 op2 : List String) : Bool :=
  decide ((enumOperators op1 op2).length < 21)

/-- C2 (code bug): the reserved-name assert of line 343 can never fire,
because line 341 already removed `"0"` from the operator list before the
check; in particular `network_shapley` does not raise on inputs whose
operator columns contain `"0"`. -/
theorem c2_zero_name_check_never_fires :
    ∀ op1 op2 : List String, zeroNameCheckPasses op1 op2 = true := by
  intro op1 op2
  unfold zeroNameCheckPasses
  rw [decide_eq_true_eq]
  intro hmem
  unfold enumOperators at hmem
  rw [List.mem_filter] at hmem
  have := hmem.2
  simp at this

/-- The number of distinct operator names other than the sentinel `"0"`. -/
def distinctOperatorCount (op1 op2 : List String) : ℕ :=
  ((uniqueList (op1 ++ op2)).filter fun s => decide (s ≠ "0")).length

/-- C8: the line-344 guard accepts exactly the inputs with at most 20
distinct operators — so 15 operators pass and 21 are rejected. -/
theorem c8_operator_cap (op1 op2 : List String) :
    opCountCheckPasses op1 op2 = true ↔ distinctOperatorCount op1 op2 ≤ 20 := by
  unfold opCountCheckPasses enumOperators distinctOperatorCount
  rw [decide_eq_true_eq]
  have hlen : (((uniqueList (op1 ++ op2)).mergeSort fun a b => decide (a ≤ b)).filter
        fun s => decide (s ≠ "0")).length
      = ((uniqueList (op1 ++ op2)).filter fun s => decide (s ≠ "0")).length :=
    List.Perm.length_eq
      (List.Perm.filter _ (List.mergeSort_perm (uniqueList (op1 ++ op2)) _))
  rw [hlen]
  omega

/-! ### `consolidate_map` (lines 47–167)

Tables are lists of row structures; pandas `NaN` entries become `Option`;
the numeric columns are exact rationals and the shared-group ids integers.
-/

structure PrivateLink where
  Start : String
  End : String
  Cost : ℚ
  Bandwidth : ℚ
  Operator1 : String
  Operator2 : Option String
  Uptime : ℚ
  Shared : Option ℤ

structure PublicLink where
  Start : String
  End : String
  Cost : ℚ

structure DemandRow where
  Start : String
  End : String
  Traffic : ℚ
  Ty : ℕ

/-- A row of the unified table returned by `consolidate_map`. -/
structure LinkRow where
  Start : String
  End : String
  Cost : ℚ
  Bandwidth : ℚ
  Operator1 : String
  Operator2 : String
  Uptime : ℚ
  Shared : ℤ
  Ty : ℕ

/-- `s.str[:3]`: the city prefix of a switch name. -/
def city (s : String) : String := s.take 3

/-- `s.str.contains("[0-9]")`. -/
def hasDigit (s : String) : Bool := s.data.any fun c => c.isDigit

/-- The private working row after `Operator2` has been filled (lines 70–71);
`Shared` may still be missing. -/
structure PrivTmp where
  Start : String
  End : String
  Cost : ℚ
  Bandwidth : ℚ
  Operator1 : String
  Operator2 : String
  Uptime : ℚ
  Shared : Option ℤ

/-- Lines 70–71: fill a missing `Operator2` from `Operator1`. -/
def fillOperator2 (r : PrivateLink) : PrivTmp :=
  { Start := r.Start, End := r.End, Cost := r.Cost, Bandwidth := r.Bandwidth,
    Operator1 := r.Operator1, Operator2 := r.Operator2.getD r.Operator1,
    Uptime := r.Uptime, Shared := r.Shared }

/-- `int(sharedColumn.max(skipna=True))`, with `0` when every entry is
missing (lines 74 and 86). -/
def maxShared (l : List (Option ℤ)) : ℤ :=
  match l.filterMap id with
  | [] => 0
  | x :: xs => xs.foldl max x

/-- Lines 75–78: the reverse directed copy — endpoints swapped, and
`Shared` set to `to_numeric(Shared).fillna(0) + max_shared`. -/
def reverseLink (m : ℤ) (r : PrivTmp) : PrivTmp :=
  { r with Start := r.End, End := r.Start, Shared := some (r.Shared.getD 0 + m) }

/-- Line 82: effective bandwidth is `Bandwidth * Uptime`. -/
def scaleBandwidth (r : PrivTmp) : PrivTmp :=
  { r with Bandwidth := r.Bandwidth * r.Uptime }

/-- Lines 87–89: assign the rows whose `Shared` is still missing the fresh
ids `next, next + 1, …` in row order. -/
def fillNaShared : List (Option ℤ) → ℤ → List ℤ
  | [], _ => []
  | some s :: rest, next => s :: fillNaShared rest next
  | none :: rest, next => next :: fillNaShared rest (next + 1)

/-- `_unique_int` (line 35): map each value to `1 +` the position of its
first occurrence. -/
def uniqueIntMap {α : Type} [DecidableEq α] (xs : List α) (x : α) : ℤ :=
  (List.indexOf x (uniqueList xs) : ℤ) + 1

def privForward (priv : List PrivateLink) : List PrivTmp := priv.map fillOperator2

def privMax1 (priv : List PrivateLink) : ℤ :=
  maxShared ((privForward priv).map fun r => r.Shared)

/-- Line 79: forward block then reverse block. -/
def privDoubled (priv : List PrivateLink) : List PrivTmp :=
  privForward priv ++ (privForward priv).map (reverseLink (privMax1 priv))

def privScaled (priv : List PrivateLink) : List PrivTmp :=
  (privDoubled priv).map scaleBandwidth

/-- The shared column after the missing entries get fresh ids (lines 86–89). -/
def privSharedRaw (priv : List PrivateLink) : List ℤ :=
  fillNaShared ((privScaled priv).map fun r => r.Shared)
    (maxShared ((privScaled priv).map fun r => r.Shared) + 1)

/-- Line 90: compact the shared ids to a dense `1..K` range in first-seen
order. -/
def privSharedFinal (priv : List PrivateLink) : List ℤ :=
  (privSharedRaw priv).map (uniqueIntMap (privSharedRaw priv))

/-- The private block of the unified table (`Type = 0`, line 83). -/
def privRows (priv : List PrivateLink) : List LinkRow :=
  ((privScaled priv).zip (privSharedFinal priv)).map fun p =>
    { Start := p.1.Start, End := p.1.End, Cost := p.1.Cost,
      Bandwidth := p.1.Bandwidth, Operator1 := p.1.Operator1,
      Operator2 := p.1.Operator2, Uptime := p.1.Uptime, Shared := p.2, Ty := 0 }

/-- Lines 96–99: both directions of every public link. -/
def pubDoubled (pub : List PublicLink) : List PublicLink :=
  pub ++ pub.map fun e => { e with Start := e.End, End := e.Start }

def demTypes (dem : List DemandRow) : List ℕ := uniqueList (dem.map fun r => r.Ty)

/-- `demand.loc[demand["Type"] == t, "Start"].iat[0]` (line 119). -/
def srcCity (dem : List DemandRow) (t : ℕ) : String :=
  match dem.filter fun r => decide (r.Ty = t) with
  | [] => ""
  | r :: _ => r.Start

/-- `demand.loc[demand["Type"] == t, "End"].unique()` (line 120). -/
def dstCities (dem : List DemandRow) (t : ℕ) : List String :=
  uniqueList ((dem.filter fun r => decide (r.Ty = t)).map fun r => r.End)

/-- Line 122: the public edges from a switch of the source city to a switch
of some destination city of commodity `t`. -/
def qualifying (pub : List PublicLink) (dem : List DemandRow) (t : ℕ) : List PublicLink :=
  (pubDoubled pub).filter fun e =>
    decide (city e.Start = srcCity dem t) && decide (city e.End ∈ dstCities dem t)

/-- Lexicographic order on group keys: pandas `groupby` sorts its keys. -/
def pairLE (a b : String × String) : Bool :=
  decide (a.1 < b.1) || (decide (a.1 = b.1) && decide (a.2 ≤ b.2))

def groupKeys (pub : List PublicLink) (dem : List DemandRow) (t : ℕ) :
    List (String × String) :=
  (uniqueList ((qualifying pub dem t).map fun e => (city e.Start, city e.End))).mergeSort
    pairLE

/-- `min` of a column; `0` on an empty frame (never hit: groups are formed
from their own rows). -/
def minCostQ (l : List ℚ) : ℚ :=
  match l with
  | [] => 0
  | x :: xs => xs.foldl min x

structure HelperRow where
  Start : String
  End : String
  Cost : ℚ
  Ty : ℕ

/-- Lines 122–128: the direct city-overlay rows, one per
`(src city, dst city)` group, costed at the group minimum. -/
def helperDirRows (pub : List PublicLink) (dem : List DemandRow) (t : ℕ) :
    List HelperRow :=
  (groupKeys pub dem t).map fun key =>
    { Start := key.1, End := key.2,
      Cost := minCostQ (((qualifying pub dem t).filter fun e =>
        decide ((city e.Start, city e.End) = key)).map fun e => e.Cost),
      Ty := t }

def srcSwitches (pub : List PublicLink) (dem : List DemandRow) (t : ℕ) : List String :=
  uniqueList (((pubDoubled pub).filter fun e =>
    decide (city e.Start = srcCity dem t)).map fun e => e.Start)

/-- Lines 131–132: zero-cost source-helper rows, city to switch. -/
def helperSrcRows (pub : List PublicLink) (dem : List DemandRow) (t : ℕ) :
    List HelperRow :=
  (srcSwitches pub dem t).map fun sw =>
    { Start := srcCity dem t, End := sw, Cost := 0, Ty := t }

def dstSwitches (pub : List PublicLink) (dem : List DemandRow) (t : ℕ) : List String :=
  uniqueList (((pubDoubled pub).filter fun e =>
    decide (city e.End ∈ dstCities dem t)).map fun e => e.End)

/-- Lines 134–138: zero-cost sink-helper rows, switch to its city. -/
def helperDstRows (pub : List PublicLink) (dem : List DemandRow) (t : ℕ) :
    List HelperRow :=
  (dstSwitches pub dem t).map fun sw =>
    { Start := sw, End := city sw, Cost := 0, Ty := t }

/-- Lines 117–143: all helper frames, one group of three per commodity. -/
def helperRows (pub : List PublicLink) (dem : List DemandRow) : List HelperRow :=
  List.flatten ((demTypes dem).map fun t =>
    helperDirRows pub dem t ++ helperSrcRows pub dem t ++ helperDstRows pub dem t)

/-- Conversion of a helper row to a unified row (lines 149–165). -/
def helperToLink (h : HelperRow) : LinkRow :=
  { Start := h.Start, End := h.End, Cost := h.Cost, Bandwidth := 0,
    Operator1 := "0", Operator2 := "0", Uptime := 1, Shared := 0, Ty := h.Ty }

/-- The public+helper block: penalised doubled public rows (line 145), then
the helper rows, all with `Bandwidth = 0`, owner `"0"`, `Uptime = 1`,
`Shared = 0` (line 149). -/
def publicRows (pub : List PublicLink) (dem : List DemandRow) (pen : ℚ) : List LinkRow :=
  ((pubDoubled pub).map fun e =>
    { Start := e.Start, End := e.End, Cost := e.Cost + pen, Bandwidth := 0,
      Operator1 := "0", Operator2 := "0", Uptime := 1, Shared := 0, Ty := 0 })
  ++ (helperRows pub dem).map helperToLink

/-- Line 93: all demand rows of one commodity share one source. -/
def perTypeSingleSource (dem : List DemandRow) : Bool :=
  (demTypes dem).all fun t =>
    decide ((uniqueList ((dem.filter fun r => decide (r.Ty = t)).map
      fun r => r.Start)).length = 1)

/-- Lines 103–106: every directed private switch pair is covered by a
directed public pair. -/
def privatePairsCovered (priv : List PrivateLink) (pub : List PublicLink) : Bool :=
  ((privDoubled priv).map fun r => (r.Start, r.End)).all fun p =>
    decide (p ∈ (pubDoubled pub).map fun e => (e.Start, e.End))

/-- Lines 108–113: every demand city pair is covered by a public city pair. -/
def demandPairsCovered (dem : List DemandRow) (pub : List PublicLink) : Bool :=
  (dem.map fun r => (r.Start, r.End)).all fun p =>
    decide (p ∈ (pubDoubled pub).map fun e => (city e.Start, city e.End))

/-- The conjunction of every `_assert` in `consolidate_map` (lines 60–67,
93, 103–113). -/
def consolidateChecks (priv : List PrivateLink) (dem : List DemandRow)
    (pub : List PublicLink) : Bool :=
  decide (0 < priv.length)
    && priv.all (fun r => hasDigit r.Start && hasDigit r.End)
    && pub.all (fun e => hasDigit e.Start && hasDigit e.End)
    && dem.all (fun r => !hasDigit r.Start && !hasDigit r.End)
    && perTypeSingleSource dem
    && privatePairsCovered priv pub
    && demandPairsCovered dem pub

/-- `consolidate_map`: `none` models the fatal `ValueError` of a failed
validation, `some` the returned unified table (line 167: private block then
public+helper block). -/
def consolidateMap (priv : List PrivateLink) (dem : List DemandRow)
    (pub : List PublicLink) (pen : ℚ) : Option (List LinkRow) :=
  if consolidateChecks priv dem pub then
    some (privRows priv ++ publicRows pub dem pen)
  else none

theorem fillNaShared_length :
    ∀ (l : List (Option ℤ)) (st : ℤ), (fillNaShared l st).length = l.length := by
  intro l
  induction l with
  | nil => intro st; rfl
  | cons o rest ih =>
    intro st
    cases o <;> simp [fillNaShared, ih]

theorem privScaled_length (priv : List PrivateLink) :
    (privScaled priv).length = 2 * priv.length := by
  unfold privScaled privDoubled privForward
  simp only [List.length_map, List.length_append]
  omega

theorem privSharedRaw_length (priv : List PrivateLink) :
    (privSharedRaw priv).length = 2 * priv.length := by
  unfold privSharedRaw
  rw [fillNaShared_length, List.length_map, privScaled_length]

theorem privSharedFinal_length (priv : List PrivateLink) :
    (privSharedFinal priv).length = 2 * priv.length := by
  unfold privSharedFinal
  rw [List.length_map, privSharedRaw_length]

theorem privRows_length (priv : List PrivateLink) :
    (privRows priv).length = 2 * priv.length := by
  unfold privRows
  rw [List.length_map, List.length_zip, privScaled_length, privSharedFinal_length,
    Nat.min_self]

theorem pubDoubled_length (pub : List PublicLink) :
    (pubDoubled pub).length = 2 * pub.length := by
  unfold pubDoubled
  simp only [List.length_map, List.length_append]
  omega

theorem consolidateMap_eq {priv : List PrivateLink} {dem : List DemandRow}
    {pub : List PublicLink} {pen : ℚ} {out : List LinkRow}
    (h : consolidateMap priv dem pub pen = some out) :
    out = privRows priv ++ publicRows pub dem pen := by
  unfold consolidateMap at h
  by_cases hc : consolidateChecks priv dem pub
  · rw [if_pos hc] at h
    injection h with h'
    exact h'.symm
  · rw [if_neg hc] at h
    cases h

theorem foldl_min_mem : ∀ (xs : List ℚ) (x : ℚ), xs.foldl min x ∈ x :: xs := by
  intro xs
  induction xs with
  | nil => intro x; exact List.mem_singleton.mpr rfl
  | cons y ys ih =>
    intro x
    have h1 := ih (min x y)
    rcases min_choice x y with h | h <;>
      rw [List.foldl_cons] <;>
      rcases List.mem_cons.mp h1 with h2 | h2
    · rw [h2, h]
      exact List.mem_cons_self _ _
    · exact List.mem_cons_of_mem _ (List.mem_cons_of_mem _ h2)
    · rw [h2, h]
      exact List.mem_cons_of_mem _ (List.mem_cons_self _ _)
    · exact List.mem_cons_of_mem _ (List.mem_cons_of_mem _ h2)

theorem foldl_min_le : ∀ (xs : List ℚ) (x c : ℚ), c ∈ x :: xs → xs.foldl min x ≤ c := by
  intro xs
  induction xs with
  | nil =>
    intro x c hc
    rw [List.mem_singleton.mp hc]
    exact le_refl x
  | cons y ys ih =>
    intro x c hc
    rw [List.foldl_cons]
    rcases List.mem_cons.mp hc with h | h
    · calc ys.foldl min (min x y) ≤ min x y :=
            ih (min x y) (min x y) (List.mem_cons_self _ _)
        _ ≤ x := min_le_left x y
        _ = c := h.symm
    · rcases List.mem_cons.mp h with h2 | h2
      · calc ys.foldl min (min x y) ≤ min x y :=
              ih (min x y) (min x y) (List.mem_cons_self _ _)
          _ ≤ y := min_le_right x y
          _ = c := h2.symm
      · exact ih (min x y) c (List.mem_cons_of_mem _ h2)

theorem minCostQ_spec (l : List ℚ) (hne : l ≠ []) :
    minCostQ l ∈ l ∧ ∀ c ∈ l, minCostQ l ≤ c := by
  cases l with
  | nil => exact absurd rfl hne
  | cons x xs =>
    exact ⟨foldl_min_mem xs x, fun c hc => foldl_min_le xs x c hc⟩

theorem mem_uniqueList {α : Type} [DecidableEq α] :
    ∀ {xs : List α} {a : α}, a ∈ uniqueList xs ↔ a ∈ xs := by
  have main : ∀ xs : List α, ∀ a, a ∈ uniqueList xs ↔ a ∈ xs := by
    refine uniqueList_induction _ ?_ ?_
    · intro a
      rw [uniqueList_nil]
    · intro x rest ih a
      rw [uniqueList_cons, List.mem_cons, List.mem_cons]
      constructor
      · rintro (rfl | h)
        · exact Or.inl rfl
        · have := (ih a).mp h
          rw [List.mem_filter] at this
          exact Or.inr this.1
      · rintro (rfl | h)
        · exact Or.inl rfl
        · by_cases hax : a = x
          · exact Or.inl hax
          · refine Or.inr ((ih a).mpr ?_)
            rw [List.mem_filter]
            exact ⟨h, by simp [hax]⟩
  intro xs a
  exact main xs a

theorem groupKeys_exists {pub : List PublicLink} {dem : List DemandRow} {t : ℕ}
    {key : String × String} (h : key ∈ groupKeys pub dem t) :
    ∃ e ∈ qualifying pub dem t, (city e.Start, city e.End) = key := by
  unfold groupKeys at h
  have h1 : key ∈ uniqueList ((qualifying pub dem t).map fun e =>
      (city e.Start, city e.End)) :=
    (List.mergeSort_perm _ _).mem_iff.mp h
  rw [mem_uniqueList, List.mem_map] at h1
  obtain ⟨e, he, hkey⟩ := h1
  exact ⟨e, he, hkey⟩

theorem groupKeys_mem {pub : List PublicLink} {dem : List DemandRow} {t : ℕ}
    {key : String × String} (h : key ∈ groupKeys pub dem t) :
    key.1 = srcCity dem t ∧ key.2 ∈ dstCities dem t := by
  obtain ⟨e, he, hkey⟩ := groupKeys_exists h
  unfold qualifying at he
  rw [List.mem_filter, Bool.and_eq_true, decide_eq_true_eq, decide_eq_true_eq] at he
  rw [← hkey]
  exact he.2

theorem qualifying_filter_key {pub : List PublicLink} {dem : List DemandRow} {t : ℕ}
    {key : String × String} (h1 : key.1 = srcCity dem t)
    (h2 : key.2 ∈ dstCities dem t) :
    ((qualifying pub dem t).filter fun e => decide ((city e.Start, city e.End) = key))
      = (pubDoubled pub).filter fun e =>
          decide (city e.Start = key.1) && decide (city e.End = key.2) := by
  rcases key with ⟨a, b⟩
  simp only at h1 h2
  unfold qualifying
  rw [List.filter_filter]
  apply List.filter_congr
  intro e _
  by_cases hs : city e.Start = a
  · by_cases he2 : city e.End = b
    · have hk : (city e.Start, city e.End) = (a, b) := by rw [hs, he2]
      have hq1 : city e.Start = srcCity dem t := by rw [hs, h1]
      have hq2 : city e.End ∈ dstCities dem t := by rw [he2]; exact h2
      simp only [hk, hq1, hq2, hs, he2]
      simp [h2]
    · have hk : ¬((city e.Start, city e.End) = (a, b)) := by simp [he2]
      simp [hk, he2]
  · have hk : ¬((city e.Start, city e.End) = (a, b)) := by simp [hs]
    simp [hk, hs]

/-- C6: in the unified table, `hybrid_penalty` is added to the cost of each
of the `2*|public_links|` directed original public edges and to no helper
edge: the public block's costs are exactly the doubled original costs plus
the penalty, every source- and sink-helper row costs `0`, every direct city
overlay row costs the minimum unpenalised public cost over the qualifying
switch pairs between its two cities, and the rows after the public block
are exactly the helper rows. -/
theorem c6_cost_structure (priv : List PrivateLink) (dem : List DemandRow)
    (pub : List PublicLink) (pen : ℚ) (out : List LinkRow)
    (h : consolidateMap priv dem pub pen = some out) :
    (((out.drop (2 * priv.length)).take (2 * pub.length)).map fun r => r.Cost)
        = (pubDoubled pub).map (fun e => e.Cost + pen)
    ∧ (∀ t, ∀ r ∈ helperSrcRows pub dem t, r.Cost = 0)
    ∧ (∀ t, ∀ r ∈ helperDstRows pub dem t, r.Cost = 0)
    ∧ (∀ t, ∀ r ∈ helperDirRows pub dem t,
        (r.Cost ∈ ((pubDoubled pub).filter fun e =>
            decide (city e.Start = r.Start) && decide (city e.End = r.End)).map
              (fun e => e.Cost)
        ∧ ∀ c ∈ ((pubDoubled pub).filter fun e =>
            decide (city e.Start = r.Start) && decide (city e.End = r.End)).map
              (fun e => e.Cost), r.Cost ≤ c))
    ∧ out.drop (2 * priv.length + 2 * pub.length)
        = (helperRows pub dem).map helperToLink := by
  have hout := consolidateMap_eq h
  subst hout
  refine ⟨?_, ?_, ?_, ?_, ?_⟩
  · rw [List.drop_left' (privRows_length priv)]
    unfold publicRows
    rw [List.take_left' (by rw [List.length_map, pubDoubled_length])]
    rw [List.map_map]
    rfl
  · intro t r hr
    unfold helperSrcRows at hr
    rw [List.mem_map] at hr
    obtain ⟨sw, _, rfl⟩ := hr
    rfl
  · intro t r hr
    unfold helperDstRows at hr
    rw [List.mem_map] at hr
    obtain ⟨sw, _, rfl⟩ := hr
    rfl
  · intro t r hr
    unfold helperDirRows at hr
    rw [List.mem_map] at hr
    obtain ⟨key, hkey, rfl⟩ := hr
    obtain ⟨hk1, hk2⟩ := groupKeys_mem hkey
    obtain ⟨e, he, hke⟩ := groupKeys_exists hkey
    have hfeq := @qualifying_filter_key pub dem t key hk1 hk2
    have hne : (((qualifying pub dem t).filter fun e =>
        decide ((city e.Start, city e.End) = key)).map fun e => e.Cost) ≠ [] := by
      have hmem : e.Cost ∈ ((qualifying pub dem t).filter fun e =>
          decide ((city e.Start, city e.End) = key)).map fun e => e.Cost := by
        rw [List.mem_map]
        refine ⟨e, ?_, rfl⟩
        rw [List.mem_filter]
        exact ⟨he, by simp [hke]⟩
      exact List.ne_nil_of_mem hmem
    dsimp only
    rw [← hfeq]
    exact minCostQ_spec _ hne
  · have hlen : 2 * priv.length + 2 * pub.length
        = (privRows priv ++ (pubDoubled pub).map (fun e =>
            ({ Start := e.Start, End := e.End, Cost := e.Cost + pen, Bandwidth := 0,
               Operator1 := "0", Operator2 := "0", Uptime := 1, Shared := 0,
               Ty := 0 } : LinkRow))).length := by
      rw [List.length_append, privRows_length, List.length_map, pubDoubled_length]
    unfold publicRows
    rw [← List.append_assoc]
    exact List.drop_left' hlen.symm

/-- A one-link fixture used by concrete witnesses. -/
def cPriv : List PrivateLink :=
  [{ Start := "AAA1", End := "BBB1", Cost := 4, Bandwidth := 100,
     Operator1 := "X", Operator2 := none, Uptime := 1, Shared := some 1 }]

def cPub : List PublicLink := [{ Start := "AAA1", End := "BBB1", Cost := 10 }]

def cDem : List DemandRow := [{ Start := "AAA", End := "BBB", Traffic := 1, Ty := 1 }]

theorem consolidateMap_fixture :
    consolidateMap cPriv cDem cPub 5
      = some (privRows cPriv ++ publicRows cPub cDem 5) := by
  have hchecks : consolidateChecks cPriv cDem cPub = true := by decide
  unfold consolidateMap
  rw [if_pos hchecks]

theorem c6_cost_structure_witness :
    (consolidateMap cPriv cDem cPub 5
      = some (privRows cPriv ++ publicRows cPub cDem 5))
    ∧ ((((privRows cPriv ++ publicRows cPub cDem 5).drop
          (2 * cPriv.length)).take (2 * cPub.length)).map fun r => r.Cost)
        = (pubDoubled cPub).map (fun e => e.Cost + 5) :=
  ⟨consolidateMap_fixture,
    (c6_cost_structure cPriv cDem cPub 5 _ consolidateMap_fixture).1⟩

/-! ### Shared-group id bookkeeping (claim C7) -/

theorem zip_map_snd {α β : Type} :
    ∀ (a : List α) (b : List β), a.length = b.length →
      ((a.zip b).map fun p => p.2) = b := by
  intro a
  induction a with
  | nil =>
    intro b h
    cases b with
    | nil => rfl
    | cons y ys => simp at h
  | cons x xs ih =>
    intro b h
    cases b with
    | nil => simp at h
    | cons y ys =>
      have h' : xs.length = ys.length := by simp at h; omega
      rw [List.zip_cons_cons, List.map_cons, ih ys h']

/-- The `Shared` column of the private block of the returned table. -/
theorem out_take_shared (priv : List PrivateLink) (dem : List DemandRow)
    (pub : List PublicLink) (pen : ℚ) :
    (((privRows priv ++ publicRows pub dem pen).take (2 * priv.length)).map
        fun r => r.Shared)
      = privSharedFinal priv := by
  rw [List.take_left' (privRows_length priv)]
  unfold privRows
  rw [List.map_map]
  exact zip_map_snd (privScaled priv) (privSharedFinal priv)
    (by rw [privScaled_length, privSharedFinal_length])

theorem foldl_max_ge : ∀ (xs : List ℤ) (x c : ℤ), c ∈ x :: xs → c ≤ xs.foldl max x := by
  intro xs
  induction xs with
  | nil =>
    intro x c hc
    rw [List.mem_singleton.mp hc]
    exact le_refl x
  | cons y ys ih =>
    intro x c hc
    rw [List.foldl_cons]
    rcases List.mem_cons.mp hc with h | h
    · calc c = x := h
        _ ≤ max x y := le_max_left x y
        _ ≤ ys.foldl max (max x y) := ih (max x y) (max x y) (List.mem_cons_self _ _)
    · rcases List.mem_cons.mp h with h2 | h2
      · calc c = y := h2
          _ ≤ max x y := le_max_right x y
          _ ≤ ys.foldl max (max x y) := ih (max x y) (max x y) (List.mem_cons_self _ _)
      · exact ih (max x y) c (List.mem_cons_of_mem _ h2)

theorem maxShared_ge {l : List (Option ℤ)} {s : ℤ} (h : some s ∈ l) : s ≤ maxShared l := by
  have hs : s ∈ l.filterMap id := by
    rw [List.mem_filterMap]
    exact ⟨some s, h, rfl⟩
  unfold maxShared
  split
  · next heq => rw [heq] at hs; cases hs
  · next x xs heq => rw [heq] at hs; exact foldl_max_ge xs x s hs

theorem fillNaShared_getD :
    ∀ (l : List (Option ℤ)) (st : ℤ) (i : ℕ), i < l.length →
      (∀ s, l.getD i none = some s → (fillNaShared l st).getD i 0 = s) ∧
      (l.getD i none = none → st ≤ (fillNaShared l st).getD i 0) := by
  intro l
  induction l with
  | nil => intro st i h; simp at h
  | cons o rest ih =>
    intro st i h
    cases i with
    | zero =>
      cases o with
      | none =>
        refine ⟨?_, ?_⟩
        · intro s hs
          rw [List.getD_cons_zero] at hs
          cases hs
        · intro _
          show st ≤ (st :: fillNaShared rest (st + 1)).getD 0 0
          rw [List.getD_cons_zero]
      | some s0 =>
        refine ⟨?_, ?_⟩
        · intro s hs
          rw [List.getD_cons_zero] at hs
          injection hs with hs
        · intro hs
          rw [List.getD_cons_zero] at hs
          cases hs
    | succ j =>
      have hj : j < rest.length := by simp at h; omega
      cases o with
      | none =>
        refine ⟨?_, ?_⟩
        · intro s hs
          rw [List.getD_cons_succ] at hs
          show (st :: fillNaShared rest (st + 1)).getD (j + 1) 0 = s
          rw [List.getD_cons_succ]
          exact (ih (st + 1) j hj).1 s hs
        · intro hs
          rw [List.getD_cons_succ] at hs
          show st ≤ (st :: fillNaShared rest (st + 1)).getD (j + 1) 0
          rw [List.getD_cons_succ]
          have := (ih (st + 1) j hj).2 hs
          omega
      | some s0 =>
        refine ⟨?_, ?_⟩
        · intro s hs
          rw [List.getD_cons_succ] at hs
          show (s0 :: fillNaShared rest st).getD (j + 1) 0 = s
          rw [List.getD_cons_succ]
          exact (ih st j hj).1 s hs
        · intro hs
          rw [List.getD_cons_succ] at hs
          show st ≤ (s0 :: fillNaShared rest st).getD (j + 1) 0
          rw [List.getD_cons_succ]
          exact (ih st j hj).2 hs

theorem getD_map_lt {α β : Type} (f : α → β) (l : List α) (i : ℕ) (h : i < l.length)
    (d : β) (d' : α) : (l.map f).getD i d = f (l.getD i d') := by
  rw [List.getD_eq_getElem (l.map f) d (by rw [List.length_map]; exact h),
    List.getD_eq_getElem l d' h]
  simp

theorem getD_mem {α : Type} {l : List α} {i : ℕ} {d : α} (h : i < l.length) :
    l.getD i d ∈ l := by
  rw [List.getD_eq_getElem l d h]
  exact List.getElem_mem h

theorem privMax1_eq (priv : List PrivateLink) :
    privMax1 priv = maxShared (priv.map fun r => r.Shared) := by
  unfold privMax1 privForward
  rw [List.map_map]
  rfl

theorem privShared_opts (priv : List PrivateLink) :
    ((privScaled priv).map fun r => r.Shared)
      = (priv.map fun r => r.Shared)
        ++ (priv.map fun r => some (r.Shared.getD 0 + privMax1 priv)) := by
  unfold privScaled privDoubled privForward
  simp only [List.map_append, List.map_map]
  rfl

theorem uniqueIntMap_inj_on {α : Type} [DecidableEq α] {xs : List α} {a b : α}
    (ha : a ∈ xs) (hb : b ∈ xs) (hne : a ≠ b) :
    uniqueIntMap xs a ≠ uniqueIntMap xs b := by
  unfold uniqueIntMap
  intro h
  have h2 : List.indexOf a (uniqueList xs) = List.indexOf b (uniqueList xs) := by omega
  exact hne ((List.indexOf_inj (mem_uniqueList.mpr ha) (mem_uniqueList.mpr hb)).mp h2)

/-- A default row used only as the `getD` fallback. -/
def privDefault : PrivateLink :=
  { Start := "", End := "", Cost := 0, Bandwidth := 0, Operator1 := "",
    Operator2 := none, Uptime := 0, Shared := none }

/-- The raw (pre-compaction) shared ids of the forward copy and the reverse
copy of one private link always differ, provided every explicit input id is
at least `1`. -/
theorem privSharedRaw_get_ne (priv : List PrivateLink)
    (hvalid : ∀ r ∈ priv, ∀ s, r.Shared = some s → 1 ≤ s)
    (i : ℕ) (hi : i < priv.length) :
    (privSharedRaw priv).getD i 0 ≠ (privSharedRaw priv).getD (priv.length + i) 0 := by
  have hopts := privShared_opts priv
  have hoptlen : ((privScaled priv).map fun r => r.Shared).length = 2 * priv.length := by
    rw [List.length_map, privScaled_length]
  have hgi : ((privScaled priv).map fun r => r.Shared).getD i none
      = (priv.getD i privDefault).Shared := by
    rw [hopts, List.getD_append _ _ _ _ (by rw [List.length_map]; omega)]
    exact getD_map_lt _ priv i hi none privDefault
  have hgmi : ((privScaled priv).map fun r => r.Shared).getD (priv.length + i) none
      = some ((priv.getD i privDefault).Shared.getD 0 + privMax1 priv) := by
    rw [hopts, List.getD_append_right _ _ _ _ (by rw [List.length_map]; omega)]
    rw [List.length_map, show priv.length + i - priv.length = i by omega]
    exact getD_map_lt _ priv i hi none privDefault
  have hblen : i < ((privScaled priv).map fun r => r.Shared).length := by omega
  have hblen2 : priv.length + i < ((privScaled priv).map fun r => r.Shared).length := by
    omega
  have hspec1 := fillNaShared_getD ((privScaled priv).map fun r => r.Shared)
    (maxShared ((privScaled priv).map fun r => r.Shared) + 1) i hblen
  have hspec2 := fillNaShared_getD ((privScaled priv).map fun r => r.Shared)
    (maxShared ((privScaled priv).map fun r => r.Shared) + 1) (priv.length + i) hblen2
  have hprivmem : priv.getD i privDefault ∈ priv := getD_mem hi
  cases hcase : (priv.getD i privDefault).Shared with
  | some s =>
    have h1 : (privSharedRaw priv).getD i 0 = s := by
      unfold privSharedRaw
      exact hspec1.1 s (by rw [hgi, hcase])
    have h2 : (privSharedRaw priv).getD (priv.length + i) 0 = s + privMax1 priv := by
      unfold privSharedRaw
      exact hspec2.1 _ (by rw [hgmi, hcase]; rfl)
    have hs1 : 1 ≤ s := hvalid _ hprivmem s hcase
    have hmem : some s ∈ priv.map fun r => r.Shared := by
      rw [← hcase]
      apply List.mem_map_of_mem _ hprivmem
    have hsm : s ≤ privMax1 priv := by
      rw [privMax1_eq]
      exact maxShared_ge hmem
    rw [h1, h2]
    omega
  | none =>
    have h1 : maxShared ((privScaled priv).map fun r => r.Shared) + 1
        ≤ (privSharedRaw priv).getD i 0 := by
      unfold privSharedRaw
      exact hspec1.2 (by rw [hgi, hcase])
    have h2 : (privSharedRaw priv).getD (priv.length + i) 0 = 0 + privMax1 priv := by
      unfold privSharedRaw
      exact hspec2.1 _ (by rw [hgmi, hcase]; rfl)
    have hmax12 : privMax1 priv ≤ maxShared ((privScaled priv).map fun r => r.Shared) := by
      apply maxShared_ge
      have : ((privScaled priv).map fun r => r.Shared).getD (priv.length + i) none
          ∈ (privScaled priv).map fun r => r.Shared := getD_mem hblen2
      rw [hgmi, hcase] at this
      show some (privMax1 priv) ∈ _
      have heq : some ((none : Option ℤ).getD 0 + privMax1 priv)
          = some (privMax1 priv) := by
        rw [Option.getD_none, zero_add]
      rw [heq] at this
      exact this
    rw [h2]
    omega

theorem privSharedFinal_get_ne (priv : List PrivateLink)
    (hvalid : ∀ r ∈ priv, ∀ s, r.Shared = some s → 1 ≤ s)
    (i : ℕ) (hi : i < priv.length) :
    (privSharedFinal priv).getD i 0 ≠ (privSharedFinal priv).getD (priv.length + i) 0 := by
  have hz := privSharedRaw_get_ne priv hvalid i hi
  have hb1 : i < (privSharedRaw priv).length := by rw [privSharedRaw_length]; omega
  have hb2 : priv.length + i < (privSharedRaw priv).length := by
    rw [privSharedRaw_length]; omega
  unfold privSharedFinal
  rw [getD_map_lt _ _ i hb1 0 0, getD_map_lt _ _ _ hb2 0 0]
  exact uniqueIntMap_inj_on (getD_mem hb1) (getD_mem hb2) hz

theorem uniqueList_nodup {α : Type} [DecidableEq α] : ∀ xs : List α, (uniqueList xs).Nodup := by
  refine uniqueList_induction _ ?_ ?_
  · rw [uniqueList_nil]
    exact List.nodup_nil
  · intro x xs ih
    rw [uniqueList_cons, List.nodup_cons]
    refine ⟨?_, ih⟩
    intro hmem
    rw [mem_uniqueList, List.mem_filter] at hmem
    simp at hmem

theorem uniqueList_map_injOn {α β : Type} [DecidableEq α] [DecidableEq β] (f : α → β) :
    ∀ xs : List α, (∀ a ∈ xs, ∀ b ∈ xs, f a = f b → a = b) →
      uniqueList (xs.map f) = (uniqueList xs).map f := by
  refine uniqueList_induction
    (fun xs => (∀ a ∈ xs, ∀ b ∈ xs, f a = f b → a = b) →
      uniqueList (xs.map f) = (uniqueList xs).map f) ?_ ?_
  · intro _
    rw [List.map_nil, uniqueList_nil, uniqueList_nil, List.map_nil]
  · intro x xs ih hf
    rw [List.map_cons, uniqueList_cons, uniqueList_cons, List.map_cons]
    congr 1
    have hfm : (xs.map f).filter (fun y => decide (y ≠ f x))
        = (xs.filter fun y => decide (y ≠ x)).map f := by
      rw [List.filter_map]
      congr 1
      apply List.filter_congr
      intro a ha
      by_cases hax : a = x
      · subst hax
        simp
      · have hfx : f a ≠ f x := fun he =>
          hax (hf a (List.mem_cons_of_mem _ ha) x (List.mem_cons_self _ _) he)
        simp [hax, hfx]
    rw [hfm]
    apply ih
    intro a ha b hb
    exact hf a (List.mem_cons_of_mem _ (List.mem_of_mem_filter ha)) b
      (List.mem_cons_of_mem _ (List.mem_of_mem_filter hb))

theorem map_indexOf_shift {α : Type} [DecidableEq α] :
    ∀ u : List α, u.Nodup → ∀ c : ℤ,
      (u.map fun v => (List.indexOf v u : ℤ) + c)
        = (List.range u.length).map fun (j : ℕ) => (j : ℤ) + c := by
  intro u
  induction u with
  | nil => intro _ c; rfl
  | cons x us ih =>
    intro hnd c
    rw [List.nodup_cons] at hnd
    rw [List.map_cons, List.indexOf_cons_self, List.length_cons,
      List.range_succ_eq_map, List.map_cons, List.map_map]
    congr 1
    have hstep : ∀ v ∈ us, (List.indexOf v (x :: us) : ℤ) + c
        = (List.indexOf v us : ℤ) + (c + 1) := by
      intro v hv
      have hvx : x ≠ v := fun he => hnd.1 (he ▸ hv)
      rw [List.indexOf_cons_ne _ hvx]
      push_cast
      ring
    rw [List.map_congr_left hstep, ih hnd.2 (c + 1)]
    apply List.map_congr_left
    intro j _
    simp only [Function.comp_apply]
    push_cast
    ring

/-- `_unique_int` output: first-seen-deduped values are exactly `1..K`. -/
theorem uniqueList_uniqueIntMap (xs : List ℤ) :
    uniqueList (xs.map (uniqueIntMap xs))
      = (List.range (uniqueList xs).length).map fun (j : ℕ) => (j : ℤ) + 1 := by
  have hinj : ∀ a ∈ xs, ∀ b ∈ xs, uniqueIntMap xs a = uniqueIntMap xs b → a = b := by
    intro a ha b hb h
    unfold uniqueIntMap at h
    have h2 : List.indexOf a (uniqueList xs) = List.indexOf b (uniqueList xs) := by omega
    exact (List.indexOf_inj (mem_uniqueList.mpr ha) (mem_uniqueList.mpr hb)).mp h2
  rw [uniqueList_map_injOn _ xs hinj]
  exact map_indexOf_shift (uniqueList xs) (uniqueList_nodup xs) 1

/-- C7: in the unified table, the forward and reverse copies of each private
link carry distinct `Shared` ids (for inputs whose explicit ids are `≥ 1`),
and the ids of the private block, deduplicated in first-seen order, are
exactly the dense range `1..K`. -/
theorem c7_shared_ids (priv : List PrivateLink) (dem : List DemandRow)
    (pub : List PublicLink) (pen : ℚ) (out : List LinkRow)
    (h : consolidateMap priv dem pub pen = some out)
    (hvalid : ∀ r ∈ priv, ∀ s, r.Shared = some s → 1 ≤ s) :
    (∀ i, i < priv.length →
      ((out.take (2 * priv.length)).map fun r => r.Shared).getD i 0
        ≠ ((out.take (2 * priv.length)).map fun r => r.Shared).getD (priv.length + i) 0)
    ∧ uniqueList ((out.take (2 * priv.length)).map fun r => r.Shared)
        = (List.range
            ((uniqueList ((out.take (2 * priv.length)).map fun r => r.Shared)).length)).map
            fun (j : ℕ) => (j : ℤ) + 1 := by
  have hout := consolidateMap_eq h
  subst hout
  rw [out_take_shared priv dem pub pen]
  constructor
  · exact fun i hi => privSharedFinal_get_ne priv hvalid i hi
  · have hd := uniqueList_uniqueIntMap (privSharedRaw priv)
    unfold privSharedFinal
    rw [hd, List.length_map, List.length_range]

theorem c7_shared_ids_witness :
    (consolidateMap cPriv cDem cPub 5
        = some (privRows cPriv ++ publicRows cPub cDem 5))
    ∧ (∀ r ∈ cPriv, ∀ s, r.Shared = some s → 1 ≤ s)
    ∧ (∀ i, i < cPriv.length →
        (((privRows cPriv ++ publicRows cPub cDem 5).take (2 * cPriv.length)).map
            fun r => r.Shared).getD i 0
          ≠ (((privRows cPriv ++ publicRows cPub cDem 5).take (2 * cPriv.length)).map
            fun r => r.Shared).getD (cPriv.length + i) 0) :=
  ⟨consolidateMap_fixture, by decide,
    (c7_shared_ids cPriv cDem cPub 5 _ consolidateMap_fixture (by decide)).1⟩

/-- A pandas object on the heap: a DataFrame in one of the schemas that occur
inside `consolidate_map` (caller tables, the Operator2-filled private working
frames, helper frames, and unified frames). -/
inductive Frame where
  | privF : List PrivateLink → Frame
  | pubF : List PublicLink → Frame
  | demF : List DemandRow → Frame
  | tmpF : List PrivTmp → Frame
  | helperF : List HelperRow → Frame
  | linkF : List LinkRow → Frame

/-- The heap of pandas DataFrames; Python variables are indices into it. -/
abbrev PandasHeap := List Frame

def emptyFrame : Frame := Frame.privF []

def asPriv : Frame → List PrivateLink
  | Frame.privF l => l
  | _ => []

def asPub : Frame → List PublicLink
  | Frame.pubF l => l
  | _ => []

def asDem : Frame → List DemandRow
  | Frame.demF l => l
  | _ => []

/-- Lines 55–57: `private_df = private_links.copy()` and the analogous public
and demand copies — three fresh allocations holding the caller values. -/
def heapCopies (h0 : PandasHeap) (pPriv pPub pDem : ℕ) : PandasHeap :=
  h0 ++ [Frame.privF (asPriv (h0.getD pPriv emptyFrame)),
         Frame.pubF (asPub (h0.getD pPub emptyFrame)),
         Frame.demF (asDem (h0.getD pDem emptyFrame))]

/-- Lines 86–90 leave the private working frame with every `Shared` filled by
its compacted id. -/
def privFilled (priv : List PrivateLink) : List PrivTmp :=
  ((privScaled priv).zip (privSharedFinal priv)).map fun p =>
    { p.1 with Shared := some p.2 }

/-- Lines 70–90: the private working frame is processed in place (indices
`h0.length` for the copy, `h0.length + 3` for `rev`, `h0.length + 4` for the
concatenated frame that replaces `private_df` at line 79); the constant
`Type = 0` column of line 83 is carried by the final unified rows. -/
def heapPrivProcessed (h0 : PandasHeap) (pPriv pPub pDem : ℕ) : PandasHeap :=
  let priv0 := asPriv (h0.getD pPriv emptyFrame)
  (((((heapCopies h0 pPriv pPub pDem).set h0.length
        (Frame.tmpF (privForward priv0))
      ++ [Frame.tmpF (privForward priv0)]).set (h0.length + 3)
        (Frame.tmpF ((privForward priv0).map (reverseLink (privMax1 priv0))))
      ++ [Frame.tmpF (privDoubled priv0)]).set (h0.length + 4)
        (Frame.tmpF (privScaled priv0))).set (h0.length + 4)
        (Frame.tmpF (privFilled priv0)))

/-- Line 98: `rev_public[["Start", "End"]] = rev_public[["End", "Start"]]`. -/
def pubSwapped (pub : List PublicLink) : List PublicLink :=
  pub.map fun e => { e with Start := e.End, End := e.Start }

/-- Lines 97–99: `rev_public` is a fresh copy at `h0.length + 5`, swapped in
place, and `public_df` is rebound to the fresh concatenation at
`h0.length + 6`. -/
def heapPubProcessed (h0 : PandasHeap) (pPriv pPub pDem : ℕ) : PandasHeap :=
  let pub0 := asPub (h0.getD pPub emptyFrame)
  ((heapPrivProcessed h0 pPriv pPub pDem ++ [Frame.pubF pub0]).set (h0.length + 5)
      (Frame.pubF (pubSwapped pub0)))
    ++ [Frame.pubF (pubDoubled pub0)]

/-- Lines 117–143: one helper frame is allocated per traffic type. -/
def heapHelpers (h0 : PandasHeap) (pPriv pPub pDem : ℕ) : PandasHeap :=
  let pub0 := asPub (h0.getD pPub emptyFrame)
  let dem0 := asDem (h0.getD pDem emptyFrame)
  (demTypes dem0).foldl
    (fun hh t => hh ++ [Frame.helperF
      (helperDirRows pub0 dem0 t ++ helperSrcRows pub0 dem0 t
        ++ helperDstRows pub0 dem0 t)])
    (heapPubProcessed h0 pPriv pPub pDem)

/-- Line 145 adds the penalty in place on the concatenated public frame;
lines 147–167 build the unified public+helper frame and the returned table as
fresh allocations. -/
def heapFinal (h0 : PandasHeap) (pPriv pPub pDem : ℕ) (pen : ℚ) : PandasHeap :=
  let priv0 := asPriv (h0.getD pPriv emptyFrame)
  let pub0 := asPub (h0.getD pPub emptyFrame)
  let dem0 := asDem (h0.getD pDem emptyFrame)
  ((heapHelpers h0 pPriv pPub pDem).set (h0.length + 6)
      (Frame.pubF ((pubDoubled pub0).map fun e => { e with Cost := e.Cost + pen })))
    ++ [Frame.linkF (publicRows pub0 dem0 pen),
        Frame.linkF (privRows priv0 ++ publicRows pub0 dem0 pen)]

/-- `consolidate_map` as a state transformer on the pandas heap: the caller
passes the indices of its three tables; each `_assert` failure raises at the
heap state it is reached in; success returns the unified table. -/
def consolidateMapRun (h0 : PandasHeap) (pPriv pPub pDem : ℕ) (pen : ℚ) :
    PandasHeap × Option (List LinkRow) :=
  let priv0 := asPriv (h0.getD pPriv emptyFrame)
  let pub0 := asPub (h0.getD pPub emptyFrame)
  let dem0 := asDem (h0.getD pDem emptyFrame)
  if decide (0 < priv0.length) && priv0.all (fun r => hasDigit r.Start && hasDigit r.End)
      && pub0.all (fun e => hasDigit e.Start && hasDigit e.End)
      && dem0.all (fun r => !hasDigit r.Start && !hasDigit r.End) then
    if perTypeSingleSource dem0 then
      if privatePairsCovered priv0 pub0 then
        if demandPairsCovered dem0 pub0 then
          (heapFinal h0 pPriv pPub pDem pen,
            some (privRows priv0 ++ publicRows pub0 dem0 pen))
        else (heapPubProcessed h0 pPriv pPub pDem, none)
      else (heapPubProcessed h0 pPriv pPub pDem, none)
    else (heapPrivProcessed h0 pPriv pPub pDem, none)
  else (heapCopies h0 pPriv pPub pDem, none)

theorem getD_set_ne {α : Type} (l : List α) (j : ℕ) (v : α) (i : ℕ) (d : α)
    (h : j ≠ i) : (l.set j v).getD i d = l.getD i d := by
  rw [List.getD_eq_getElem?_getD, List.getD_eq_getElem?_getD,
    List.getElem?_set_ne h]

theorem foldl_alloc_getD {α β : Type} (g : β → α) :
    ∀ (ts : List β) (h : List α) (i : ℕ) (d : α), i < h.length →
      (ts.foldl (fun hh t => hh ++ [g t]) h).getD i d = h.getD i d := by
  intro ts
  induction ts with
  | nil => intro h i d _; rfl
  | cons t ts ih =>
    intro h i d hi
    rw [List.foldl_cons,
      ih (h ++ [g t]) i d (by rw [List.length_append]; omega),
      List.getD_append _ _ _ _ hi]

theorem heapCopies_length (h0 : PandasHeap) (pPriv pPub pDem : ℕ) :
    (heapCopies h0 pPriv pPub pDem).length = h0.length + 3 := by
  unfold heapCopies
  simp only [List.length_append, List.length_cons, List.length_nil]

theorem heapCopies_getD (h0 : PandasHeap) (pPriv pPub pDem : ℕ) {i : ℕ}
    (hi : i < h0.length) (d : Frame) :
    (heapCopies h0 pPriv pPub pDem).getD i d = h0.getD i d :=
  List.getD_append _ _ _ _ hi

theorem heapPrivProcessed_length (h0 : PandasHeap) (pPriv pPub pDem : ℕ) :
    (heapPrivProcessed h0 pPriv pPub pDem).length = h0.length + 5 := by
  unfold heapPrivProcessed
  simp only [List.length_set, List.length_append, List.length_cons,
    List.length_nil, heapCopies_length]

theorem heapPrivProcessed_getD (h0 : PandasHeap) (pPriv pPub pDem : ℕ) {i : ℕ}
    (hi : i < h0.length) (d : Frame) :
    (heapPrivProcessed h0 pPriv pPub pDem).getD i d = h0.getD i d := by
  unfold heapPrivProcessed
  rw [getD_set_ne _ _ _ _ _ (by omega), getD_set_ne _ _ _ _ _ (by omega),
    List.getD_append _ _ _ _
      (by rw [List.length_set, List.length_append, List.length_set,
        heapCopies_length]; omega),
    getD_set_ne _ _ _ _ _ (by omega),
    List.getD_append _ _ _ _ (by rw [List.length_set, heapCopies_length]; omega),
    getD_set_ne _ _ _ _ _ (by omega)]
  exact heapCopies_getD h0 pPriv pPub pDem hi d

theorem heapPubProcessed_length (h0 : PandasHeap) (pPriv pPub pDem : ℕ) :
    (heapPubProcessed h0 pPriv pPub pDem).length = h0.length + 7 := by
  unfold heapPubProcessed
  simp only [List.length_set, List.length_append, List.length_cons,
    List.length_nil, heapPrivProcessed_length]

theorem heapPubProcessed_getD (h0 : PandasHeap) (pPriv pPub pDem : ℕ) {i : ℕ}
    (hi : i < h0.length) (d : Frame) :
    (heapPubProcessed h0 pPriv pPub pDem).getD i d = h0.getD i d := by
  unfold heapPubProcessed
  rw [List.getD_append _ _ _ _
      (by rw [List.length_set, List.length_append, heapPrivProcessed_length]; omega),
    getD_set_ne _ _ _ _ _ (by omega),
    List.getD_append _ _ _ _ (by rw [heapPrivProcessed_length]; omega)]
  exact heapPrivProcessed_getD h0 pPriv pPub pDem hi d

theorem foldl_alloc_length_ge {α β : Type} (g : β → α) :
    ∀ (ts : List β) (h : List α), h.length ≤ (ts.foldl (fun hh t => hh ++ [g t]) h).length := by
  intro ts
  induction ts with
  | nil => intro h; exact le_refl _
  | cons t ts ih =>
    intro h
    rw [List.foldl_cons]
    calc h.length ≤ (h ++ [g t]).length := by rw [List.length_append]; omega
      _ ≤ _ := ih (h ++ [g t])

theorem heapHelpers_length_ge (h0 : PandasHeap) (pPriv pPub pDem : ℕ) :
    h0.length + 7 ≤ (heapHelpers h0 pPriv pPub pDem).length := by
  unfold heapHelpers
  rw [← heapPubProcessed_length h0 pPriv pPub pDem]
  exact foldl_alloc_length_ge _ _ _

theorem heapHelpers_getD (h0 : PandasHeap) (pPriv pPub pDem : ℕ) {i : ℕ}
    (hi : i < h0.length) (d : Frame) :
    (heapHelpers h0 pPriv pPub pDem).getD i d = h0.getD i d := by
  unfold heapHelpers
  rw [foldl_alloc_getD _ _ _ _ _ (by rw [heapPubProcessed_length]; omega)]
  exact heapPubProcessed_getD h0 pPriv pPub pDem hi d

theorem heapFinal_getD (h0 : PandasHeap) (pPriv pPub pDem : ℕ) (pen : ℚ) {i : ℕ}
    (hi : i < h0.length) (d : Frame) :
    (heapFinal h0 pPriv pPub pDem pen).getD i d = h0.getD i d := by
  unfold heapFinal
  have hlen := heapHelpers_length_ge h0 pPriv pPub pDem
  rw [List.getD_append _ _ _ _ (by rw [List.length_set]; omega),
    getD_set_ne _ _ _ _ _ (by omega)]
  exact heapHelpers_getD h0 pPriv pPub pDem hi d

/-- C9: `consolidate_map` run on the pandas heap leaves every caller table
unchanged — the frames at the caller's three indices read back exactly as
before the call — and its result is the pure function of the original table
values. -/
theorem c9_no_caller_mutation (h0 : PandasHeap) (pPriv pPub pDem : ℕ) (pen : ℚ)
    (hp : pPriv < h0.length) (hq : pPub < h0.length) (hd : pDem < h0.length) :
    ((consolidateMapRun h0 pPriv pPub pDem pen).1.getD pPriv emptyFrame
        = h0.getD pPriv emptyFrame
      ∧ (consolidateMapRun h0 pPriv pPub pDem pen).1.getD pPub emptyFrame
        = h0.getD pPub emptyFrame
      ∧ (consolidateMapRun h0 pPriv pPub pDem pen).1.getD pDem emptyFrame
        = h0.getD pDem emptyFrame)
    ∧ (consolidateMapRun h0 pPriv pPub pDem pen).2
        = consolidateMap (asPriv (h0.getD pPriv emptyFrame))
            (asDem (h0.getD pDem emptyFrame)) (asPub (h0.getD pPub emptyFrame)) pen := by
  have hheap : ∀ i, i < h0.length →
      (consolidateMapRun h0 pPriv pPub pDem pen).1.getD i emptyFrame
        = h0.getD i emptyFrame := by
    intro i hi
    unfold consolidateMapRun
    dsimp only
    split_ifs
    · exact heapFinal_getD h0 pPriv pPub pDem pen hi emptyFrame
    · exact heapPubProcessed_getD h0 pPriv pPub pDem hi emptyFrame
    · exact heapPubProcessed_getD h0 pPriv pPub pDem hi emptyFrame
    · exact heapPrivProcessed_getD h0 pPriv pPub pDem hi emptyFrame
    · exact heapCopies_getD h0 pPriv pPub pDem hi emptyFrame
  refine ⟨⟨hheap pPriv hp, hheap pPub hq, hheap pDem hd⟩, ?_⟩
  unfold consolidateMapRun consolidateMap consolidateChecks
  dsimp only
  rcases Bool.eq_false_or_eq_true (decide (0 < (asPriv (h0.getD pPriv emptyFrame)).length)
      && (asPriv (h0.getD pPriv emptyFrame)).all
        (fun r => hasDigit r.Start && hasDigit r.End)
      && (asPub (h0.getD pPub emptyFrame)).all
        (fun e => hasDigit e.Start && hasDigit e.End)
      && (asDem (h0.getD pDem emptyFrame)).all
        (fun r => !hasDigit r.Start && !hasDigit r.End)) with hA | hA <;>
    rcases Bool.eq_false_or_eq_true
      (perTypeSingleSource (asDem (h0.getD pDem emptyFrame))) with hB | hB <;>
    rcases Bool.eq_false_or_eq_true (privatePairsCovered
      (asPriv (h0.getD pPriv emptyFrame)) (asPub (h0.getD pPub emptyFrame))) with hC | hC <;>
    rcases Bool.eq_false_or_eq_true (demandPairsCovered
      (asDem (h0.getD pDem emptyFrame)) (asPub (h0.getD pPub emptyFrame))) with hD | hD <;>
    simp only [hA, hB, hC, hD] <;> simp

def cHeap : PandasHeap := [Frame.privF cPriv, Frame.pubF cPub, Frame.demF cDem]

theorem c9_no_caller_mutation_witness :
    (0 < cHeap.length ∧ 1 < cHeap.length ∧ 2 < cHeap.length)
    ∧ (((consolidateMapRun cHeap 0 1 2 5).1.getD 0 emptyFrame
          = cHeap.getD 0 emptyFrame
        ∧ (consolidateMapRun cHeap 0 1 2 5).1.getD 1 emptyFrame
          = cHeap.getD 1 emptyFrame
        ∧ (consolidateMapRun cHeap 0 1 2 5).1.getD 2 emptyFrame
          = cHeap.getD 2 emptyFrame)
      ∧ (consolidateMapRun cHeap 0 1 2 5).2
          = consolidateMap (asPriv (cHeap.getD 0 emptyFrame))
              (asDem (cHeap.getD 2 emptyFrame)) (asPub (cHeap.getD 1 emptyFrame)) 5) :=
  ⟨⟨by decide, by decide, by decide⟩,
    c9_no_caller_mutation cHeap 0 1 2 5 (by decide) (by decide) (by decide)⟩

end NetworkShapley
